import Mathlib

/-!
Verification of the CES visualization pipeline of `pyphi/visualize.py`.

Shallow embedding conventions: purviews and mechanisms are lists of node
indices (`List Nat`), phi values are rationals, numpy arrays are lists,
Python functions that can raise are modelled with `Option`/`Except`, and
node labels are an abstract function `Nat → String`.
-/

namespace Visualize

/-- A MICE (maximally irreducible cause or effect): the fields the plotting
code reads are its mechanism, its purview and its phi value. -/
structure Mice where
  mechanism : List Nat
  purview : List Nat
  phi : ℚ
deriving DecidableEq

/-- A distinction: a mechanism together with its cause MICE and effect MICE
and a phi value. -/
structure Distinction where
  mechanism : List Nat
  cause : Mice
  effect : Mice
  phi : ℚ
deriving DecidableEq

/-- A relation: an ordered sequence of relata (MICE), the relation's own
derived purview, and a phi value.  `relation.relata.purviews` of the source
is `relata.map Mice.purview`; `relation.mechanisms` is
`relata.map Mice.mechanism`. -/
structure Relation where
  relata : List Mice
  purview : List Nat
  phi : ℚ
deriving DecidableEq

/-- Modelled from the spec: `pyphi.relations.separate_ces` (imported as
`rel.separate_ces`, not part of `src/`): for each distinction in CES order,
its cause MICE immediately followed by its effect MICE. -/
def separate_ces (ces : List Distinction) : List Mice :=
  ces.flatMap (fun d => [d.cause, d.effect])

/-- Minimum of a list of rationals, as Python `min`/`numpy.min` on a
nonempty sequence (0 is a junk value for the empty list, on which the
source raises). -/
def listMin : List ℚ → ℚ
  | [] => 0
  | x :: xs => xs.foldl min x

/-- Maximum of a list of rationals (0 is a junk value for the empty list). -/
def listMax : List ℚ → ℚ
  | [] => 0
  | x :: xs => xs.foldl max x

/-- `normalize_sizes(min_size, max_size, elements)` of the source, with the
`element.phi` values already extracted into `phis`: if all phis are equal
return the midpoint for each element, otherwise map linearly so the minimum
phi goes to `min_size` and the maximum to `max_size`. -/
def normalize_sizes (min_size max_size : ℚ) (phis : List ℚ) : List ℚ :=
  let min_phi := listMin phis
  let max_phi := listMax phis
  if max_phi = min_phi then
    phis.map (fun _ => (min_size + max_size) / 2)
  else
    phis.map (fun phi =>
      min_size + ((phi - min_phi) * (max_size - min_size)) / (max_phi - min_phi))

/-- `chunk_list(my_list, n)` of the source: successive `n`-sized chunks. -/
def chunk_list {α : Type} (n : Nat) : List α → List (List α)
  | [] => []
  | x :: xs => (x :: xs.take (n - 1)) :: chunk_list n (xs.drop (n - 1))
termination_by l => l.length
decreasing_by
  simp only [List.length_drop, List.length_cons]
  omega

/-- `mechanism_sizes = [min(phis) for phis in chunk_list(purview_sizes, 2)]`
from `plot_ces`. -/
def mechanism_sizes (purview_sizes : List ℚ) : List ℚ :=
  (chunk_list 2 purview_sizes).map listMin

/-- The cause/effect coordinate expansion of `plot_ces`: duplicate each
distinction's embedded point into two adjacent rows and add the offset to
the second (effect) row only (`coords[0::2] = dc; coords[1::2] = dc;
coords[1::2] += cause_effect_offset`). -/
def expandCoords (distinction_coords : List (List ℚ)) (offset : List ℚ) :
    List (List ℚ) :=
  distinction_coords.flatMap (fun p => [p, List.zipWith (· + ·) p offset])

/-- The offset actually added by `plot_ces`: when `order_on_z_axis` is set
the configured offset is truncated to its first two components
(`cause_effect_offset = cause_effect_offset[:2]`). -/
def usedOffset (order_on_z_axis : Bool) (offset : List ℚ) : List ℚ :=
  if order_on_z_axis then offset.take 2 else offset

/-- The full coordinate array built by `plot_ces` from the embedding output. -/
def plotCoords (order_on_z_axis : Bool) (distinction_coords : List (List ℚ))
    (offset : List ℚ) : List (List ℚ) :=
  expandCoords distinction_coords (usedOffset order_on_z_axis offset)

/-- The z column of `plot_ces` in mechanism-order z-mode:
`z = np.array([len(c.mechanism) for c in separated_ces])`. -/
def zCoords (ces : List Distinction) : List Nat :=
  (separate_ces ces).map (fun m => m.mechanism.length)

/-- `get_edge_color(relation, colorcode_2_relations)` of the source.  The
Python `raise ValueError(...)` fallthrough becomes `Except.error`; the
indexing `list(relation.relata.purviews)[0]` / `[1]` is total there because
the function is only called on 2-relations (here via `getD`). -/
def get_edge_color (relation : Relation) (colorcode_2_relations : Bool) :
    Except String String :=
  if colorcode_2_relations then
    let purview0 := (relation.relata.map Mice.purview).getD 0 []
    let purview1 := (relation.relata.map Mice.purview).getD 1 []
    let relation_purview := relation.purview
    if purview0 = purview1 ∧ purview1 = relation_purview then
      Except.ok "fuchsia"
    else if purview0 ≠ purview1 ∧
        ((∀ n ∈ purview0, n ∈ purview1) ∨ (∀ n ∈ purview1, n ∈ purview0)) then
      Except.ok "indigo"
    else if (purview0 = purview1 ∧ purview1 ≠ relation_purview) ∨
        ((∃ n ∈ purview0, n ∈ purview1) ∧ ¬ (∀ n ∈ purview0, n ∈ purview1)) then
      Except.ok "cyan"
    else
      Except.error "Unexpected relation type, check function to cover all cases"
  else
    Except.ok "teal"

/-- `relation.mechanisms[0]` of the source (the first relatum's mechanism;
`[]` is a junk value for a relation with no relata, on which Python raises). -/
def mech0 (r : Relation) : List Nat :=
  (r.relata.map Mice.mechanism).getD 0 []

/-- `purview_chunker(relations_list)` of the source, translated statement by
statement: state is (purview_chunked_list, purview_chunk, index_chunk_list,
index_chunk, previous_relation), seeded with chunk `[relations_list[0]]` and
index chunk `[0]`, then one fold step per relation.  Note the source never
appends the final in-progress chunk before returning.  On the empty list the
source raises IndexError at `relations_list[0]`; here it returns `([], [])`
(the caller only invokes it on a nonempty list). -/
def purview_chunker (relations_list : List Relation) :
    List (List Relation) × List (List Nat) :=
  match relations_list with
  | [] => ([], [])
  | r0 :: _ =>
    let step := fun
        (st : List (List Relation) × List Relation ×
              List (List Nat) × List Nat × Relation) (relation : Relation) =>
      let chunkedList := st.1
      let chunk := st.2.1
      let idxList := st.2.2.1
      let idxChunk := st.2.2.2.1
      let previous := st.2.2.2.2
      if mech0 relation = mech0 previous ∧
          relation.purview = previous.purview ∧ relation ≠ previous then
        (chunkedList, chunk ++ [relation], idxList,
         idxChunk ++ [relations_list.indexOf relation], relation)
      else
        (chunkedList ++ [chunk], [relation], idxList ++ [idxChunk],
         [relations_list.indexOf relation], relation)
    let final := relations_list.foldl step ([], [r0], [], [0], r0)
    (final.1, final.2.2.1)

/-- The index of the LAST occurrence of `a` in `l`, mirroring the Python
dict comprehension `{purview: i for i, purview in enumerate(ces)}` in which
later entries overwrite earlier ones; `none` models the KeyError for a key
that never occurs. -/
def lastIdx {α : Type} [DecidableEq α] : List α → α → Option Nat
  | [], _ => none
  | x :: xs, a =>
    match lastIdx xs a with
    | some i => some (i + 1)
    | none => if x = a then some 0 else none

/-- `[index_map[relatum] for relatum in relation.relata]` of the source:
the feature-matrix indices of all relata, or `none` if any relatum is
missing from the separated CES (Python KeyError). -/
def collectIndices (ces : List Mice) : List Mice → Option (List Nat)
  | [] => some []
  | m :: ms =>
    match lastIdx ces m with
    | none => none
    | some i =>
      match collectIndices ces ms with
      | none => none
      | some is => some (i :: is)

/-- One column of the feature matrix: 1 at every row index of a relatum of
the relation, 0 elsewhere (`relation_features[indices] = 1` over
`np.zeros(N)`). -/
def relationColumn (ces : List Mice) (r : Relation) : Option (List Nat) :=
  match collectIndices ces r.relata with
  | some idxs => some ((List.range ces.length).map
      (fun p => if p ∈ idxs then 1 else 0))
  | none => none

/-- `feature_matrix(ces, relations)` of the source, stored column-major:
one length-`N` indicator column per relation (the numpy code assigns
`features[:, j]` column by column). -/
def feature_matrix (ces : List Mice) : List Relation → Option (List (List Nat))
  | [] => some []
  | r :: rs =>
    match relationColumn ces r with
    | none => none
    | some c =>
      match feature_matrix ces rs with
      | none => none
      | some cs => some (c :: cs)

/-- `relation_vertex_indices(features, j)` of the source for one column:
ascending indices of the nonzero entries (`features[:, j].nonzero()[0]`). -/
def relation_vertex_indices (col : List Nat) : List Nat :=
  match col with
  | [] => []
  | x :: xs =>
    (if x ≠ 0 then [0] else []) ++ (relation_vertex_indices xs).map (· + 1)

/-- The flat `edges` list of `plot_ces`: vertex indices of every feature
column summing to exactly 2, concatenated in column order. -/
def edge_vertex_list (cols : List (List Nat)) : List Nat :=
  (cols.filter (fun c => c.sum == 2)).flatMap relation_vertex_indices

/-- The `triangles` list of `plot_ces`: the vertex-index triple of every
feature column summing to exactly 3, in column order. -/
def trianglesOf (cols : List (List Nat)) : List (List Nat) :=
  (cols.filter (fun c => c.sum == 3)).map relation_vertex_indices

/-- `make_label(nodes, node_labels)` of the source: the concatenation of the
label strings of the node indices, for an abstract label table `ℓ`. -/
def makeLabel (ℓ : Nat → String) (nodes : List Nat) : String :=
  String.join (nodes.map ℓ)

/-- The `legendgroup` string of a relation trace in `plot_ces`, keyed by its
grouping family.  Distinct constructors model the distinct string prefixes
`Node ... q-fold`, `Mechanism ... q-fold`, `Compound Purview ... q-fold`,
`Relation Purview ... q-fold`, `Mechanism ... Cause Purview ... q-fold`,
`All 2-Relations` and `All 3-Relations`. -/
inductive Tag where
  | node : String → Tag
  | mech : String → Tag
  | cpur : String → Tag
  | rpur : String → Tag
  | mcp : String → Tag
  | all2 : Tag
  | all3 : Tag
deriving DecidableEq

/-- The label `f"Mechanism {mechanism_label} Cause Purview {purview_label}
q-fold"` used both as the legendgroup and as the dedup key of the
mechanism-times-cause-purview family. -/
def mcpLabel (ℓ : Nat → String) (d : Distinction) : String :=
  "Mechanism " ++ makeLabel ℓ d.mechanism ++ " Cause Purview " ++
    makeLabel ℓ d.cause.purview ++ " q-fold"

/-- The truthiness of the five q-fold visibility parameters of `plot_ces`
(the Python values `False` / `True` / `"legendonly"` only matter as
truthy/falsy for whether a family's traces are emitted at all). -/
structure QfoldFlags where
  nodeQfolds : Bool
  mechanismQfolds : Bool
  compoundPurviewQfolds : Bool
  relationPurviewQfolds : Bool
  causePerMechanismQfolds : Bool

/-- The five legend-dedup lists of `plot_ces` (`legend_nodes`,
`legend_mechanisms`, `legend_purviews`, `legend_relation_purviews`,
`legend_mechanism_cause_purviews`), initialized empty for each call. -/
structure LegendState where
  nodes : List Nat
  mechs : List String
  purviews : List String
  relPurviews : List String
  mechCause : List String

/-- One grouping family's emission loop: for each key in order, emit one
primitive whose `showlegend` is `True if key not in seen else False`, and
append the key to the seen list when absent — exactly the per-trace pattern
of every q-fold section of `plot_ces`. -/
def emitFamily {κ : Type} [DecidableEq κ] (tagOf : κ → Tag) :
    List κ → List κ → List (Tag × Bool) × List κ
  | seen, [] => ([], seen)
  | seen, k :: ks =>
    let shown := decide (¬ k ∈ seen)
    let seen2 := if k ∈ seen then seen else seen ++ [k]
    let rest := emitFamily tagOf seen2 ks
    ((tagOf k, shown) :: rest.1, rest.2)

/-- The keys of the node q-fold section for one relation: every node index
(of `subsystem.node_indices`) occurring in `relation_nodes =
list(flatten(relation.mechanisms))`, gated by `show_node_qfolds`. -/
def nodeKeys (flags : QfoldFlags) (nodeIdx : List Nat) (rel : Relation) :
    List Nat :=
  if flags.nodeQfolds then
    nodeIdx.filter (fun n => decide (n ∈ (rel.relata.map Mice.mechanism).flatten))
  else []

/-- The keys (mechanism labels) of the mechanism q-fold section for one
relation: each CES distinction mechanism that is one of the relation's
mechanisms, gated by `show_mechanism_qfolds`. -/
def mechKeys (ℓ : Nat → String) (flags : QfoldFlags) (ces : List Distinction)
    (rel : Relation) : List String :=
  if flags.mechanismQfolds then
    ((ces.map Distinction.mechanism).filter
      (fun m => decide (m ∈ rel.relata.map Mice.mechanism))).map (makeLabel ℓ)
  else []

/-- The keys (purview labels) of the compound purview q-fold section for one
relation: every relatum purview, gated by `show_compound_purview_qfolds`. -/
def cpurKeys (ℓ : Nat → String) (flags : QfoldFlags) (rel : Relation) :
    List String :=
  if flags.compoundPurviewQfolds then
    (rel.relata.map Mice.purview).map (makeLabel ℓ)
  else []

/-- The key of the relation purview q-fold section: the relation's own
derived purview label, gated by `show_relation_purview_qfolds`. -/
def rpurKeys (ℓ : Nat → String) (flags : QfoldFlags) (rel : Relation) :
    List String :=
  if flags.relationPurviewQfolds then [makeLabel ℓ rel.purview] else []

/-- The keys of the mechanism-times-cause-purview q-fold section (2-relation
loop only): each CES distinction whose cause purview is among the relation's
relata purviews and whose mechanism is among the relation's mechanisms,
gated by `show_cause_per_mechanism_purview_qfolds`. -/
def mcpKeys (ℓ : Nat → String) (flags : QfoldFlags) (ces : List Distinction)
    (rel : Relation) : List String :=
  if flags.causePerMechanismQfolds then
    (ces.filter (fun d =>
      decide (d.cause.purview ∈ rel.relata.map Mice.purview) &&
      decide (d.mechanism ∈ rel.relata.map Mice.mechanism))).map (mcpLabel ℓ)
  else []

/-- The q-fold grouping sections shared by the 2-relation and 3-relation
loop bodies, in source order (node, mechanism, compound purview, relation
purview, then — in the 2-relation loop only — mechanism cause purview).
Each section reads and updates its own legend-seen list; a primitive is
abstracted to its `(legendgroup, showlegend)` pair. -/
def emitQfoldSections (ℓ : Nat → String) (nodeIdx : List Nat)
    (ces : List Distinction) (flags : QfoldFlags) (withMcp : Bool)
    (rel : Relation) (s : LegendState) : List (Tag × Bool) × LegendState :=
  let a1 := emitFamily (fun n => Tag.node (makeLabel ℓ [n])) s.nodes
    (nodeKeys flags nodeIdx rel)
  let a2 := emitFamily Tag.mech s.mechs (mechKeys ℓ flags ces rel)
  let a3 := emitFamily Tag.cpur s.purviews (cpurKeys ℓ flags rel)
  let a4 := emitFamily Tag.rpur s.relPurviews (rpurKeys ℓ flags rel)
  let a5 := emitFamily Tag.mcp s.mechCause
    (if withMcp then mcpKeys ℓ flags ces rel else [])
  (a1.1 ++ a2.1 ++ a3.1 ++ a4.1 ++ a5.1,
   ⟨a1.2, a2.2, a3.2, a4.2, a5.2⟩)

/-- The body of the 2-relation loop of `plot_ces` at enumeration index `r`:
the five q-fold sections followed by the catch-all `All 2-Relations`
primitive, whose legend entry is shown iff `r == 0`. -/
def emitRelationTraces2 (ℓ : Nat → String) (nodeIdx : List Nat)
    (ces : List Distinction) (flags : QfoldFlags) (r : Nat) (rel : Relation)
    (s : LegendState) : List (Tag × Bool) × LegendState :=
  let a := emitQfoldSections ℓ nodeIdx ces flags true rel s
  (a.1 ++ [(Tag.all2, decide (r = 0))], a.2)

/-- The body of the 3-relation loop of `plot_ces` at enumeration index `r`:
the four shared q-fold sections (no mechanism-cause-purview section there)
followed by the catch-all `All 3-Relations` primitive, shown iff `r == 0`. -/
def emitRelationTraces3 (ℓ : Nat → String) (nodeIdx : List Nat)
    (ces : List Distinction) (flags : QfoldFlags) (r : Nat) (rel : Relation)
    (s : LegendState) : List (Tag × Bool) × LegendState :=
  let a := emitQfoldSections ℓ nodeIdx ces flags false rel s
  (a.1 ++ [(Tag.all3, decide (r = 0))], a.2)

/-- `for r, relation in enumerate(two_relations)` threading the legend-seen
lists through each iteration. -/
def runTwoRelations (ℓ : Nat → String) (nodeIdx : List Nat)
    (ces : List Distinction) (flags : QfoldFlags) :
    Nat → List Relation → LegendState → List (Tag × Bool) × LegendState
  | _, [], s => ([], s)
  | r, rel :: rest, s =>
    let a := emitRelationTraces2 ℓ nodeIdx ces flags r rel s
    let b := runTwoRelations ℓ nodeIdx ces flags (r + 1) rest a.2
    (a.1 ++ b.1, b.2)

/-- `for r, triangle in enumerate(triangles)` with `relation =
three_relations[r]`, threading the same legend-seen lists. -/
def runThreeRelations (ℓ : Nat → String) (nodeIdx : List Nat)
    (ces : List Distinction) (flags : QfoldFlags) :
    Nat → List Relation → LegendState → List (Tag × Bool) × LegendState
  | _, [], s => ([], s)
  | r, rel :: rest, s =>
    let a := emitRelationTraces3 ℓ nodeIdx ces flags r rel s
    let b := runThreeRelations ℓ nodeIdx ces flags (r + 1) rest a.2
    (a.1 ++ b.1, b.2)

/-- All relation primitives of one `plot_ces` call, as their
`(legendgroup, showlegend)` pairs in emission order.  The 2-relation block
runs only under `if show_edges:` and `if edges:` (the flat edge list is
nonempty exactly when a 2-relation exists), the 3-relation block only under
`if show_mesh:` and `if triangles:`; the legend-seen lists start empty and
are threaded from the first block into the second. -/
def plot_relation_primitives (ℓ : Nat → String) (nodeIdx : List Nat)
    (ces : List Distinction) (flags : QfoldFlags)
    (show_edges show_mesh : Bool)
    (two_relations three_relations : List Relation) : List (Tag × Bool) :=
  let s0 : LegendState := ⟨[], [], [], [], []⟩
  let b2 := if show_edges = true ∧ two_relations ≠ [] then
    runTwoRelations ℓ nodeIdx ces flags 0 two_relations s0
  else ([], s0)
  let b3 := if show_mesh = true ∧ three_relations ≠ [] then
    runThreeRelations ℓ nodeIdx ces flags 0 three_relations b2.2
  else ([], b2.2)
  b2.1 ++ b3.1

/-- The legend-display rule: a primitive's legend entry is shown iff its tag
has not been seen before, starting from the tags in `seen`. -/
def dedupOk : List Tag → List (Tag × Bool) → Prop
  | _, [] => True
  | seen, p :: rest => (p.2 = true ↔ p.1 ∉ seen) ∧ dedupOk (p.1 :: seen) rest

/-- Sample 2-relation: relata with mechanisms `[0]`, `[1]`, both purviews
`[0]`, relation purview `[0]`, phi 1. -/
def sampleRelA : Relation := ⟨[⟨[0], [0], 1⟩, ⟨[1], [0], 1⟩], [0], 1⟩

/-- Same first mechanism and purview as `sampleRelA` but phi 2, so it is a
distinct relation with the same chunking key. -/
def sampleRelB : Relation := ⟨[⟨[0], [0], 1⟩, ⟨[1], [0], 1⟩], [0], 2⟩

/-- A relation with a different first mechanism and purview. -/
def sampleRelC : Relation := ⟨[⟨[2], [1], 1⟩, ⟨[3], [1], 1⟩], [1], 1⟩

/-- Distinct node indices render to distinct single-node labels (true of
`subsystem.node_labels`; needed because the node q-fold seen-list is keyed
by index while the legendgroup string is keyed by label). -/
def NodeLabelInj (ℓ : Nat → String) (nodeIdx : List Nat) : Prop :=
  ∀ n ∈ nodeIdx, ∀ m ∈ nodeIdx, makeLabel ℓ [n] = makeLabel ℓ [m] → n = m

/-- Correspondence between the legend-dedup bookkeeping of `plot_ces` and
the multiset `S` of tags emitted so far: each seen-list holds exactly the
keys whose tag is in `S`, and the catch-all tags are in `S` iff the
corresponding loop has passed its first iteration (`r2`/`r3` count emitted
`All 2-Relations` / `All 3-Relations` primitives). -/
def LegendInv (ℓ : Nat → String) (nodeIdx : List Nat) (s : LegendState)
    (S : List Tag) (r2 r3 : Nat) : Prop :=
  (∀ n ∈ s.nodes, n ∈ nodeIdx) ∧
  (∀ n ∈ nodeIdx, (n ∈ s.nodes ↔ Tag.node (makeLabel ℓ [n]) ∈ S)) ∧
  (∀ l : String, l ∈ s.mechs ↔ Tag.mech l ∈ S) ∧
  (∀ l : String, l ∈ s.purviews ↔ Tag.cpur l ∈ S) ∧
  (∀ l : String, l ∈ s.relPurviews ↔ Tag.rpur l ∈ S) ∧
  (∀ l : String, l ∈ s.mechCause ↔ Tag.mcp l ∈ S) ∧
  (Tag.all2 ∈ S ↔ r2 ≠ 0) ∧
  (Tag.all3 ∈ S ↔ r3 ≠ 0)

end Visualize

namespace Visualize

/- ------------------------------------------------------------------ -/
/- Supporting lemmas                                                   -/
/- ------------------------------------------------------------------ -/

theorem foldl_min_le_init (t : List ℚ) (x : ℚ) : t.foldl min x ≤ x := by
  induction t generalizing x with
  | nil => exact le_refl x
  | cons y ys ih =>
    exact le_trans (ih (min x y)) (min_le_left x y)

theorem foldl_min_le_mem (t : List ℚ) (x a : ℚ) (ha : a ∈ t) :
    t.foldl min x ≤ a := by
  induction t generalizing x with
  | nil => cases ha
  | cons y ys ih =>
    rcases List.mem_cons.mp ha with h | h
    · subst h
      exact le_trans (foldl_min_le_init ys (min x a)) (min_le_right x a)
    · exact ih (min x y) h

theorem foldl_min_mem (t : List ℚ) (x : ℚ) :
    t.foldl min x = x ∨ t.foldl min x ∈ t := by
  induction t generalizing x with
  | nil => exact Or.inl rfl
  | cons y ys ih =>
    rcases ih (min x y) with h | h
    · rcases min_choice x y with hc | hc
      · rw [List.foldl_cons, h, hc]
        exact Or.inl rfl
      · rw [List.foldl_cons, h, hc]
        exact Or.inr (List.mem_cons_self y ys)
    · exact Or.inr (List.mem_cons_of_mem y h)

theorem foldl_max_init_le (t : List ℚ) (x : ℚ) : x ≤ t.foldl max x := by
  induction t generalizing x with
  | nil => exact le_refl x
  | cons y ys ih =>
    exact le_trans (le_max_left x y) (ih (max x y))

theorem foldl_max_mem_le (t : List ℚ) (x a : ℚ) (ha : a ∈ t) :
    a ≤ t.foldl max x := by
  induction t generalizing x with
  | nil => cases ha
  | cons y ys ih =>
    rcases List.mem_cons.mp ha with h | h
    · subst h
      exact le_trans (le_max_right x a) (foldl_max_init_le ys (max x a))
    · exact ih (max x y) h

theorem foldl_max_mem (t : List ℚ) (x : ℚ) :
    t.foldl max x = x ∨ t.foldl max x ∈ t := by
  induction t generalizing x with
  | nil => exact Or.inl rfl
  | cons y ys ih =>
    rcases ih (max x y) with h | h
    · rcases max_choice x y with hc | hc
      · rw [List.foldl_cons, h, hc]
        exact Or.inl rfl
      · rw [List.foldl_cons, h, hc]
        exact Or.inr (List.mem_cons_self y ys)
    · exact Or.inr (List.mem_cons_of_mem y h)

theorem listMin_mem (l : List ℚ) (h : l ≠ []) : listMin l ∈ l := by
  cases l with
  | nil => exact absurd rfl h
  | cons x xs =>
    rcases foldl_min_mem xs x with h1 | h1
    · rw [listMin, h1]
      exact List.mem_cons_self x xs
    · exact List.mem_cons_of_mem x (by rw [listMin]; exact h1)

theorem listMax_mem (l : List ℚ) (h : l ≠ []) : listMax l ∈ l := by
  cases l with
  | nil => exact absurd rfl h
  | cons x xs =>
    rcases foldl_max_mem xs x with h1 | h1
    · rw [listMax, h1]
      exact List.mem_cons_self x xs
    · exact List.mem_cons_of_mem x (by rw [listMax]; exact h1)

theorem listMin_le (l : List ℚ) (a : ℚ) (ha : a ∈ l) : listMin l ≤ a := by
  cases l with
  | nil => cases ha
  | cons x xs =>
    rcases List.mem_cons.mp ha with h | h
    · rw [listMin, h]
      exact foldl_min_le_init xs x
    · exact foldl_min_le_mem xs x a h

theorem le_listMax (l : List ℚ) (a : ℚ) (ha : a ∈ l) : a ≤ listMax l := by
  cases l with
  | nil => cases ha
  | cons x xs =>
    rcases List.mem_cons.mp ha with h | h
    · rw [listMax, h]
      exact foldl_max_init_le xs x
    · exact foldl_max_mem_le xs x a h

theorem listMin_le_listMax (l : List ℚ) (h : l ≠ []) : listMin l ≤ listMax l :=
  le_trans (listMin_le l (listMax l) (listMax_mem l h)) (le_refl _)

theorem mem_get?_mem (l : List ℚ) (i : Nat) (a : ℚ) (h : l.get? i = some a) :
    a ∈ l :=
  List.get?_mem h

/- ------------------------------------------------------------------ -/
/- C4: Size Normalizer                                                 -/
/- ------------------------------------------------------------------ -/

/-- C4: for every non-empty phi sequence with bounds `lo ≤ hi`: if all phi
values are equal, `normalize_sizes` returns the midpoint `(lo+hi)/2` for
every element; otherwise it maps the minimum phi to `lo`, the maximum phi
to `hi`, and is monotone non-decreasing in phi; the output has one entry
per input, index-aligned. -/
theorem normalize_sizes_spec (lo hi : ℚ) (phis : List ℚ)
    (hne : phis ≠ []) (hb : lo ≤ hi) :
    (normalize_sizes lo hi phis).length = phis.length ∧
    ((∀ a ∈ phis, ∀ b ∈ phis, a = b) →
      ∀ i, i < phis.length →
        (normalize_sizes lo hi phis).get? i = some ((lo + hi) / 2)) ∧
    (¬ (∀ a ∈ phis, ∀ b ∈ phis, a = b) →
      (∀ i, phis.get? i = some (listMin phis) →
        (normalize_sizes lo hi phis).get? i = some lo) ∧
      (∀ i, phis.get? i = some (listMax phis) →
        (normalize_sizes lo hi phis).get? i = some hi) ∧
      (∀ i j a b x y, phis.get? i = some a → phis.get? j = some b → a ≤ b →
        (normalize_sizes lo hi phis).get? i = some x →
        (normalize_sizes lo hi phis).get? j = some y → x ≤ y)) := by
  have hlen : (normalize_sizes lo hi phis).length = phis.length := by
    rw [normalize_sizes]
    split
    · exact List.length_map _ _
    · exact List.length_map _ _
  refine ⟨hlen, ?_, ?_⟩
  · intro hall i hi2
    have hmm : listMax phis = listMin phis :=
      hall _ (listMax_mem phis hne) _ (listMin_mem phis hne)
    rw [normalize_sizes, if_pos hmm, List.get?_map]
    obtain ⟨a, ha⟩ : ∃ a, phis.get? i = some a := ⟨_, List.get?_eq_get hi2⟩
    rw [ha]
    rfl
  · intro hnall
    have hmm : listMax phis ≠ listMin phis := by
      intro heq
      apply hnall
      intro a ha b hb2
      have h1 : a ≤ listMax phis := le_listMax phis a ha
      have h2 : listMin phis ≤ a := listMin_le phis a ha
      have h3 : b ≤ listMax phis := le_listMax phis b hb2
      have h4 : listMin phis ≤ b := listMin_le phis b hb2
      rw [heq] at h1 h3
      have : a = listMin phis := le_antisymm h1 h2
      have hb' : b = listMin phis := le_antisymm h3 h4
      rw [this, hb']
    have hdpos : 0 < listMax phis - listMin phis := by
      have := listMin_le_listMax phis hne
      rcases lt_or_eq_of_le this with h | h
      · linarith
      · exact absurd h.symm hmm
    have hform : ∀ i a, phis.get? i = some a →
        (normalize_sizes lo hi phis).get? i =
          some (lo + ((a - listMin phis) * (hi - lo)) /
            (listMax phis - listMin phis)) := by
      intro i a ha
      rw [normalize_sizes, if_neg hmm, List.get?_map, ha]
      rfl
    refine ⟨?_, ?_, ?_⟩
    · intro i hmin
      rw [hform i _ hmin]
      congr 1
      rw [sub_self, zero_mul, zero_div, add_zero]
    · intro i hmax
      rw [hform i _ hmax]
      congr 1
      rw [mul_comm, mul_div_assoc,
        div_self (ne_of_gt hdpos), mul_one]
      ring
    · intro i j a b x y ha hb2 hab hx hy
      rw [hform i a ha] at hx
      rw [hform j b hb2] at hy
      have hx' : x = lo + ((a - listMin phis) * (hi - lo)) /
          (listMax phis - listMin phis) := by
        exact Option.some_injective _ hx.symm
      have hy' : y = lo + ((b - listMin phis) * (hi - lo)) /
          (listMax phis - listMin phis) := by
        exact Option.some_injective _ hy.symm
      rw [hx', hy']
      have hnum : (a - listMin phis) * (hi - lo) ≤
          (b - listMin phis) * (hi - lo) :=
        mul_le_mul_of_nonneg_right (by linarith) (by linarith)
      have hdiv := (div_le_div_right hdpos).mpr hnum
      linarith

/-- C4 witness: `normalize_sizes 1 3 [0, 2]` maps the minimum phi 0 to the
lower bound 1 and the maximum phi 2 to the upper bound 3. -/
theorem normalize_sizes_spec_witness :
    (normalize_sizes 1 3 [0, 2]).get? 0 = some 1 ∧
    (normalize_sizes 1 3 [0, 2]).get? 1 = some 3 := by
  have h := normalize_sizes_spec 1 3 [0, 2] (by decide) (by decide)
  have h2 := h.2.2 (by decide)
  exact ⟨h2.1 0 (by decide), h2.2.1 1 (by decide)⟩

/- ------------------------------------------------------------------ -/
/- C10: mechanism sizes are pairwise minima of purview sizes           -/
/- ------------------------------------------------------------------ -/

theorem chunk_list_two_cons {α : Type} (a b : α) (l : List α) :
    chunk_list 2 (a :: b :: l) = [a, b] :: chunk_list 2 l := by
  rw [chunk_list]
  simp

theorem mechanism_sizes_get (l : List ℚ) (i : Nat) (a b : ℚ)
    (ha : l.get? (2 * i) = some a) (hb : l.get? (2 * i + 1) = some b) :
    (mechanism_sizes l).get? i = some (min a b) := by
  induction i generalizing l with
  | zero =>
    cases l with
    | nil => simp at ha
    | cons x t =>
      cases t with
      | nil => simp at hb
      | cons y t2 =>
        have hx : x = a := by simpa using ha
        have hy : y = b := by simpa using hb
        subst hx
        subst hy
        rw [mechanism_sizes, chunk_list_two_cons]
        simp [listMin]
  | succ i ih =>
    cases l with
    | nil => simp at ha
    | cons x t =>
      cases t with
      | nil =>
        have h2 : 2 * (i + 1) = 2 * i + 1 + 1 := by ring
        rw [h2] at ha
        simp at ha
      | cons y t2 =>
        have h2 : 2 * (i + 1) = 2 * i + 1 + 1 := by ring
        have h3 : 2 * (i + 1) + 1 = 2 * i + 1 + 1 + 1 := by ring
        rw [h2] at ha
        rw [h3] at hb
        have ha2 : t2.get? (2 * i) = some a := ha
        have hb2 : t2.get? (2 * i + 1) = some b := hb
        rw [mechanism_sizes, chunk_list_two_cons]
        have := ih t2 ha2 hb2
        simpa [mechanism_sizes] using this

/-- C10: in the `plot_ces` pipeline, the mechanism marker size of
distinction `i` is the minimum of the two normalized purview sizes at
positions `2i` (cause) and `2i+1` (effect) of the separated CES. -/
theorem mechanism_sizes_pairwise_min (lo hi : ℚ) (ces : List Distinction)
    (i : Nat) (a b : ℚ)
    (ha : (normalize_sizes lo hi ((separate_ces ces).map Mice.phi)).get?
      (2 * i) = some a)
    (hb : (normalize_sizes lo hi ((separate_ces ces).map Mice.phi)).get?
      (2 * i + 1) = some b) :
    (mechanism_sizes
      (normalize_sizes lo hi ((separate_ces ces).map Mice.phi))).get? i =
      some (min a b) :=
  mechanism_sizes_get _ i a b ha hb

/-- C10 witness: one distinction with cause phi 1 and effect phi 2 under
size range `(10, 40)` gets purview sizes 10 and 40 and mechanism size
`min 10 40`. -/
theorem mechanism_sizes_pairwise_min_witness :
    (mechanism_sizes (normalize_sizes 10 40
      ((separate_ces [⟨[0], ⟨[0], [0], 1⟩, ⟨[0], [1], 2⟩, 1⟩]).map
        Mice.phi))).get? 0 = some (min 10 40) :=
  mechanism_sizes_pairwise_min 10 40 [⟨[0], ⟨[0], [0], 1⟩, ⟨[0], [1], 2⟩, 1⟩]
    0 10 40
    (by norm_num [normalize_sizes, separate_ces, listMin, listMax, min_def,
      max_def])
    (by norm_num [normalize_sizes, separate_ces, listMin, listMax, min_def,
      max_def])

/- ------------------------------------------------------------------ -/
/- C2: purview_chunker (code bug: first chunk duplicated, last lost)   -/
/- ------------------------------------------------------------------ -/

/-- C2: evaluating `purview_chunker` on the spec's own scenario —
`[r1(mech=A,purview=P), r2(mech=A,purview=P), r3(mech=B,purview=Q)]` with
`r1 ≠ r2` — does NOT give the groups `[[r1,r2],[r3]]` with index groups
`[[0,1],[2]]` claimed by the spec: the seeded first chunk `[r1]` is flushed
again by the first loop iteration and the final in-progress chunk `[r3]` is
never appended, so the source returns `([[r1],[r1,r2]], [[0],[0,1]])`. -/
theorem purview_chunker_scenario_eval :
    mech0 sampleRelA = mech0 sampleRelB ∧
    sampleRelA.purview = sampleRelB.purview ∧
    sampleRelA ≠ sampleRelB ∧
    purview_chunker [sampleRelA, sampleRelB, sampleRelC] =
      ([[sampleRelA], [sampleRelA, sampleRelB]], [[0], [0, 1]]) ∧
    purview_chunker [sampleRelA, sampleRelB, sampleRelC] ≠
      ([[sampleRelA, sampleRelB], [sampleRelC]], [[0, 1], [2]]) := by
  decide

/- ------------------------------------------------------------------ -/
/- C3: Relation Classifier (get_edge_color)                            -/
/- ------------------------------------------------------------------ -/

/-- C3: for a 2-relation with relata purviews `p0`, `p1` and relation
purview `pr`: color-coding off gives the single neutral color for every
edge; `p0 = p1 = pr` gives the isotext color; `p0 ≠ p1` with one purview a
subset of the other gives the sub/supertext color; `p0 = p1 ≠ pr`, or a
partial overlap with neither purview containing the other, gives the
paratext color; any other shape (disjoint nonempty purviews) is an error,
never a silent default. -/
theorem get_edge_color_spec (relation : Relation) (p0 p1 : List Nat)
    (hmap : relation.relata.map Mice.purview = [p0, p1]) :
    (get_edge_color relation false = Except.ok "teal") ∧
    (p0 = p1 → p1 = relation.purview →
      get_edge_color relation true = Except.ok "fuchsia") ∧
    (p0 ≠ p1 → ((∀ n ∈ p0, n ∈ p1) ∨ (∀ n ∈ p1, n ∈ p0)) →
      get_edge_color relation true = Except.ok "indigo") ∧
    (p0 = p1 → p1 ≠ relation.purview →
      get_edge_color relation true = Except.ok "cyan") ∧
    ((∃ n ∈ p0, n ∈ p1) → ¬ (∀ n ∈ p0, n ∈ p1) → ¬ (∀ n ∈ p1, n ∈ p0) →
      get_edge_color relation true = Except.ok "cyan") ∧
    ((∀ n ∈ p0, n ∉ p1) → p0 ≠ [] → p1 ≠ [] →
      get_edge_color relation true =
        Except.error
          "Unexpected relation type, check function to cover all cases") := by
  have e0 : (relation.relata.map Mice.purview).getD 0 [] = p0 := by
    rw [hmap]
    rfl
  have e1 : (relation.relata.map Mice.purview).getD 1 [] = p1 := by
    rw [hmap]
    rfl
  refine ⟨?_, ?_, ?_, ?_, ?_, ?_⟩
  · simp [get_edge_color]
  · intro h1 h2
    simp only [get_edge_color, e0, e1]
    rw [if_pos trivial, if_pos ⟨h1, h2⟩]
  · intro h1 h2
    simp only [get_edge_color, e0, e1]
    rw [if_pos trivial, if_neg (fun hc => h1 hc.1), if_pos ⟨h1, h2⟩]
  · intro h1 h2
    simp only [get_edge_color, e0, e1]
    rw [if_pos trivial, if_neg (fun hc => h2 hc.2),
      if_neg (fun hc => hc.1 h1), if_pos (Or.inl ⟨h1, h2⟩)]
  · intro hov hns1 hns2
    have hne : p0 ≠ p1 := by
      intro he
      exact hns1 (fun n hn => he ▸ hn)
    simp only [get_edge_color, e0, e1]
    rw [if_pos trivial, if_neg (fun hc => hne hc.1),
      if_neg (fun hc => hc.2.elim hns1 hns2),
      if_pos (Or.inr ⟨hov, hns1⟩)]
  · intro hdisj hne0 hne1
    obtain ⟨n0, hn0⟩ := List.exists_mem_of_ne_nil p0 hne0
    obtain ⟨n1, hn1⟩ := List.exists_mem_of_ne_nil p1 hne1
    have hne : p0 ≠ p1 := by
      intro he
      exact hdisj n0 hn0 (he ▸ hn0)
    simp only [get_edge_color, e0, e1]
    rw [if_pos trivial, if_neg (fun hc => hne hc.1)]
    rw [if_neg ?hc2, if_neg ?hc3]
    case hc2 =>
      intro hc
      rcases hc.2 with hs | hs
      · exact hdisj n0 hn0 (hs n0 hn0)
      · exact hdisj n1 (hs n1 hn1) hn1
    case hc3 =>
      intro hc
      rcases hc with hc | hc
      · exact hne hc.1
      · obtain ⟨n, hn, hn'⟩ := hc.1
        exact hdisj n hn hn'

/-- C3 witness: an isotext 2-relation (`p0 = p1 = pr = [0, 1]`) gets the
isotext color when color-coding is on and the neutral color when off. -/
theorem get_edge_color_spec_witness :
    get_edge_color ⟨[⟨[0], [0, 1], 1⟩, ⟨[1], [0, 1], 1⟩], [0, 1], 1⟩ true =
      Except.ok "fuchsia" ∧
    get_edge_color ⟨[⟨[0], [0, 1], 1⟩, ⟨[1], [0, 1], 1⟩], [0, 1], 1⟩ false =
      Except.ok "teal" := by
  have h := get_edge_color_spec
    ⟨[⟨[0], [0, 1], 1⟩, ⟨[1], [0, 1], 1⟩], [0, 1], 1⟩ [0, 1] [0, 1]
    (by decide)
  exact ⟨h.2.1 rfl rfl, h.1⟩

/- ------------------------------------------------------------------ -/
/- C5 and C6: Feature Matrix Builder                                   -/
/- ------------------------------------------------------------------ -/

theorem lastIdx_eq_none {α : Type} [DecidableEq α] (l : List α) (a : α) :
    lastIdx l a = none ↔ a ∉ l := by
  induction l with
  | nil => simp [lastIdx]
  | cons x xs ih =>
    rw [lastIdx]
    cases h : lastIdx xs a with
    | some i =>
      simp only []
      constructor
      · intro hc
        cases hc
      · intro hc
        have : a ∈ xs := by
          by_contra hmem
          rw [(ih.mpr hmem)] at h
          cases h
        exact absurd (List.mem_cons_of_mem x this) hc
    | none =>
      simp only []
      have hxs : a ∉ xs := ih.mp h
      by_cases hx : x = a
      · rw [if_pos hx]
        simp [hx]
      · rw [if_neg hx]
        simp only [List.mem_cons, true_iff]
        intro hc
        rcases hc with hc | hc
        · exact hx hc.symm
        · exact hxs hc

theorem lastIdx_get {α : Type} [DecidableEq α] (l : List α) (a : α) (i : Nat)
    (h : lastIdx l a = some i) : l.get? i = some a := by
  induction l generalizing i with
  | nil => cases h
  | cons x xs ih =>
    rw [lastIdx] at h
    cases hx : lastIdx xs a with
    | some j =>
      rw [hx] at h
      have : i = j + 1 := by
        cases h
        rfl
      subst this
      exact ih j hx
    | none =>
      rw [hx] at h
      by_cases hxa : x = a
      · rw [if_pos hxa] at h
        have : i = 0 := by
          cases h
          rfl
        subst this
        rw [hxa]
        rfl
      · rw [if_neg hxa] at h
        cases h

theorem lastIdx_of_nodup {α : Type} [DecidableEq α] (l : List α)
    (hn : l.Nodup) (i : Nat) (a : α) (h : l.get? i = some a) :
    lastIdx l a = some i := by
  induction l generalizing i with
  | nil => cases h
  | cons x xs ih =>
    rw [List.nodup_cons] at hn
    cases i with
    | zero =>
      have hxa : x = a := by
        have : some x = some a := h
        cases this
        rfl
      rw [lastIdx, (lastIdx_eq_none xs a).mpr (hxa ▸ hn.1), if_pos hxa]
    | succ i =>
      have : xs.get? i = some a := h
      rw [lastIdx, ih hn.2 i this]

theorem collectIndices_some (ces : List Mice) (ms : List Mice)
    (h : ∀ m ∈ ms, m ∈ ces) :
    ∃ idxs, collectIndices ces ms = some idxs := by
  induction ms with
  | nil => exact ⟨[], rfl⟩
  | cons m ms ih =>
    obtain ⟨idxs, hidxs⟩ := ih (fun m' hm' => h m' (List.mem_cons_of_mem m hm'))
    have hm : m ∈ ces := h m (List.mem_cons_self m ms)
    cases hl : lastIdx ces m with
    | none => exact absurd ((lastIdx_eq_none ces m).mp hl) (by simp [hm])
    | some i =>
      refine ⟨i :: idxs, ?_⟩
      rw [collectIndices, hl, hidxs]

theorem collectIndices_length (ces : List Mice) (ms : List Mice)
    (idxs : List Nat) (h : collectIndices ces ms = some idxs) :
    idxs.length = ms.length := by
  induction ms generalizing idxs with
  | nil =>
    have : idxs = [] := by
      cases h
      rfl
    simp [this]
  | cons m ms ih =>
    rw [collectIndices] at h
    cases hl : lastIdx ces m with
    | none =>
      rw [hl] at h
      cases h
    | some i =>
      rw [hl] at h
      cases hc : collectIndices ces ms with
      | none =>
        rw [hc] at h
        cases h
      | some t =>
        rw [hc] at h
        cases h
        simp [ih t hc]

theorem collectIndices_mem (ces : List Mice) (ms : List Mice)
    (idxs : List Nat) (h : collectIndices ces ms = some idxs) (p : Nat) :
    p ∈ idxs ↔ ∃ m ∈ ms, lastIdx ces m = some p := by
  induction ms generalizing idxs with
  | nil =>
    have : idxs = [] := by
      cases h
      rfl
    simp [this]
  | cons m ms ih =>
    rw [collectIndices] at h
    cases hl : lastIdx ces m with
    | none =>
      rw [hl] at h
      cases h
    | some i =>
      rw [hl] at h
      cases hc : collectIndices ces ms with
      | none =>
        rw [hc] at h
        cases h
      | some t =>
        rw [hc] at h
        cases h
        constructor
        · intro hp
          rcases List.mem_cons.mp hp with hp | hp
          · exact ⟨m, List.mem_cons_self m ms, hp ▸ hl⟩
          · obtain ⟨m', hm', hlm'⟩ := (ih t hc).mp hp
            exact ⟨m', List.mem_cons_of_mem m hm', hlm'⟩
        · rintro ⟨m', hm', hlm'⟩
          rcases List.mem_cons.mp hm' with hm' | hm'
          · subst hm'
            rw [hl] at hlm'
            cases hlm'
            exact List.mem_cons_self _ _
          · exact List.mem_cons_of_mem _ ((ih t hc).mpr ⟨m', hm', hlm'⟩)

theorem collectIndices_lt (ces : List Mice) (ms : List Mice)
    (idxs : List Nat) (h : collectIndices ces ms = some idxs) :
    ∀ p ∈ idxs, p < ces.length := by
  intro p hp
  obtain ⟨m, _, hlm⟩ := (collectIndices_mem ces ms idxs h p).mp hp
  exact (List.get?_eq_some.mp (lastIdx_get ces m p hlm)).1

theorem collectIndices_nodup (ces : List Mice) (ms : List Mice)
    (idxs : List Nat) (hces : ces.Nodup) (hms : ms.Nodup)
    (h : collectIndices ces ms = some idxs) : idxs.Nodup := by
  induction ms generalizing idxs with
  | nil =>
    have : idxs = [] := by
      cases h
      rfl
    simp [this]
  | cons m ms ih =>
    rw [List.nodup_cons] at hms
    rw [collectIndices] at h
    cases hl : lastIdx ces m with
    | none =>
      rw [hl] at h
      cases h
    | some i =>
      rw [hl] at h
      cases hc : collectIndices ces ms with
      | none =>
        rw [hc] at h
        cases h
      | some t =>
        rw [hc] at h
        cases h
        rw [List.nodup_cons]
        refine ⟨?_, ih t hms.2 hc⟩
        intro hi
        obtain ⟨m', hm', hlm'⟩ := (collectIndices_mem ces ms t hc i).mp hi
        have h1 := lastIdx_get ces m i hl
        have h2 := lastIdx_get ces m' i hlm'
        rw [h1] at h2
        cases h2
        exact hms.1 hm'

theorem sum_indicator (l : List Nat) (S : List Nat) :
    (l.map (fun p => if p ∈ S then 1 else 0)).sum =
      (l.filter (fun p => decide (p ∈ S))).length := by
  induction l with
  | nil => rfl
  | cons x xs ih =>
    rw [List.map_cons, List.sum_cons, List.filter_cons]
    by_cases hx : x ∈ S
    · rw [if_pos hx, ih, if_pos (decide_eq_true hx), List.length_cons]
      omega
    · rw [if_neg hx, ih, if_neg ?hneg]
      case hneg =>
        simp [hx]
      omega

theorem filter_range_length (S : List Nat) (N : Nat) (hS : S.Nodup)
    (hlt : ∀ p ∈ S, p < N) :
    ((List.range N).filter (fun p => decide (p ∈ S))).length = S.length := by
  have hperm : List.Perm ((List.range N).filter (fun p => decide (p ∈ S))) S := by
    refine (List.perm_ext_iff_of_nodup (List.Nodup.filter _ (List.nodup_range N)) hS).mpr ?_
    intro a
    simp only [List.mem_filter, List.mem_range, decide_eq_true_eq]
    constructor
    · exact fun h => h.2
    · exact fun h => ⟨hlt a h, h⟩
  exact hperm.length_eq

theorem relationColumn_spec (ces : List Mice) (r : Relation)
    (hces : ces.Nodup) (hnd : r.relata.Nodup)
    (hall : ∀ m ∈ r.relata, m ∈ ces) :
    ∃ c, relationColumn ces r = some c ∧ c.length = ces.length ∧
      (∀ p m, ces.get? p = some m →
        c.get? p = some (if m ∈ r.relata then 1 else 0)) ∧
      c.sum = r.relata.length := by
  obtain ⟨idxs, hidxs⟩ := collectIndices_some ces r.relata hall
  refine ⟨(List.range ces.length).map (fun p => if p ∈ idxs then 1 else 0),
    ?_, ?_, ?_, ?_⟩
  · rw [relationColumn, hidxs]
  · simp
  · intro p m hp
    have hplt : p < ces.length := (List.get?_eq_some.mp hp).1
    rw [List.get?_map, List.get?_range hplt]
    have hiff : p ∈ idxs ↔ m ∈ r.relata := by
      rw [collectIndices_mem ces r.relata idxs hidxs p]
      constructor
      · rintro ⟨m', hm', hlm'⟩
        have := lastIdx_get ces m' p hlm'
        rw [hp] at this
        cases this
        exact hm'
      · intro hm
        exact ⟨m, hm, lastIdx_of_nodup ces hces p m hp⟩
    simp only [Option.map_some']
    by_cases hcase : m ∈ r.relata
    · rw [if_pos (hiff.mpr hcase), if_pos hcase]
    · rw [if_neg (fun hc => hcase (hiff.mp hc)), if_neg hcase]
  · rw [sum_indicator,
      filter_range_length idxs ces.length
        (collectIndices_nodup ces r.relata idxs hces hnd hidxs)
        (collectIndices_lt ces r.relata idxs hidxs),
      collectIndices_length ces r.relata idxs hidxs]

/-- C5: for a separated CES with pairwise-distinct entries and relations
whose relata are pairwise distinct and all present in the CES,
`feature_matrix` succeeds with one length-`N` column per relation; cell
`(p, r)` is 1 iff CES entry `p` is one of relation `r`'s relata (0
otherwise), and each column sums to its relation's number of relata. -/
theorem feature_matrix_spec (ces : List Mice) (relations : List Relation)
    (hces : ces.Nodup)
    (hrel : ∀ r ∈ relations, r.relata.Nodup ∧ ∀ m ∈ r.relata, m ∈ ces) :
    ∃ cols, feature_matrix ces relations = some cols ∧
      cols.length = relations.length ∧
      (∀ c ∈ cols, c.length = ces.length) ∧
      (∀ j r, relations.get? j = some r → ∃ c, cols.get? j = some c ∧
        (∀ p m, ces.get? p = some m →
          c.get? p = some (if m ∈ r.relata then 1 else 0)) ∧
        c.sum = r.relata.length) := by
  induction relations with
  | nil =>
    refine ⟨[], rfl, rfl, by simp, ?_⟩
    intro j r h
    cases j <;> cases h
  | cons r rs ih =>
    have hr := hrel r (List.mem_cons_self r rs)
    obtain ⟨c, hc, hclen, hcell, hcsum⟩ :=
      relationColumn_spec ces r hces hr.1 hr.2
    obtain ⟨cols, hcols, hlen, hcl, hget⟩ :=
      ih (fun r' hr' => hrel r' (List.mem_cons_of_mem r hr'))
    refine ⟨c :: cols, ?_, by simp [hlen], ?_, ?_⟩
    · rw [feature_matrix, hc, hcols]
    · intro c' hc'
      rcases List.mem_cons.mp hc' with h | h
      · rw [h]
        exact hclen
      · exact hcl c' h
    · intro j r' hj
      cases j with
      | zero =>
        have : r' = r := by
          cases hj
          rfl
        subst this
        exact ⟨c, rfl, hcell, hcsum⟩
      | succ j => exact hget j r' hj

/-- C5 witness: a 4-entry separated CES with one 2-relation and one
3-relation has a succeeding feature matrix with the stated cells and
column sums. -/
theorem feature_matrix_spec_witness :
    ∃ cols, feature_matrix
      [⟨[0], [0], 1⟩, ⟨[0], [1], 1⟩, ⟨[1], [0], 1⟩, ⟨[1], [2], 1⟩]
      [⟨[⟨[0], [0], 1⟩, ⟨[1], [0], 1⟩], [0], 1⟩,
       ⟨[⟨[0], [0], 1⟩, ⟨[0], [1], 1⟩, ⟨[1], [2], 1⟩], [1], 1⟩] = some cols ∧
      cols.length = 2 ∧
      (∀ c ∈ cols, c.length = 4) ∧
      (∀ j r, ([⟨[⟨[0], [0], 1⟩, ⟨[1], [0], 1⟩], [0], 1⟩,
        ⟨[⟨[0], [0], 1⟩, ⟨[0], [1], 1⟩, ⟨[1], [2], 1⟩], [1], 1⟩] :
          List Relation).get? j = some r →
        ∃ c, cols.get? j = some c ∧
        (∀ p m, ([⟨[0], [0], 1⟩, ⟨[0], [1], 1⟩, ⟨[1], [0], 1⟩,
            ⟨[1], [2], 1⟩] : List Mice).get? p = some m →
          c.get? p = some (if m ∈ r.relata then 1 else 0)) ∧
        c.sum = r.relata.length) :=
  feature_matrix_spec
    [⟨[0], [0], 1⟩, ⟨[0], [1], 1⟩, ⟨[1], [0], 1⟩, ⟨[1], [2], 1⟩]
    [⟨[⟨[0], [0], 1⟩, ⟨[1], [0], 1⟩], [0], 1⟩,
     ⟨[⟨[0], [0], 1⟩, ⟨[0], [1], 1⟩, ⟨[1], [2], 1⟩], [1], 1⟩]
    (by decide) (by decide)

theorem relationColumn_none (ces : List Mice) (r : Relation)
    (h : ∃ m ∈ r.relata, m ∉ ces) : relationColumn ces r = none := by
  obtain ⟨m, hm, hnot⟩ := h
  suffices hnone : collectIndices ces r.relata = none by
    rw [relationColumn, hnone]
  have : ∀ ms : List Mice, m ∈ ms → collectIndices ces ms = none := by
    intro ms
    induction ms with
    | nil => intro hc; cases hc
    | cons m' ms ih =>
      intro hmem
      rcases List.mem_cons.mp hmem with he | he
      · subst he
        rw [collectIndices, (lastIdx_eq_none ces m).mpr hnot]
      · rw [collectIndices]
        cases hl : lastIdx ces m' with
        | none => rfl
        | some i => rw [ih he]

  exact this r.relata hm

/-- C6: a relation containing a relatum absent (by value equality) from the
separated CES makes `feature_matrix` fail (the Python KeyError) rather than
skip the relatum or zero-fill. -/
theorem feature_matrix_missing_relatum (ces : List Mice)
    (relations : List Relation)
    (h : ∃ r ∈ relations, ∃ m ∈ r.relata, m ∉ ces) :
    feature_matrix ces relations = none := by
  obtain ⟨r, hr, hm⟩ := h
  induction relations with
  | nil => cases hr
  | cons r0 rs ih =>
    rcases List.mem_cons.mp hr with he | he
    · rw [feature_matrix, relationColumn_none ces r0 (he ▸ hm)]
    · rw [feature_matrix]
      cases hc : relationColumn ces r0 with
      | none => rfl
      | some c => rw [ih he]

/-- C6 witness: a relation whose second relatum is missing from the CES
makes the feature matrix fail. -/
theorem feature_matrix_missing_relatum_witness :
    feature_matrix [⟨[0], [0], 1⟩, ⟨[0], [1], 1⟩]
      [⟨[⟨[0], [0], 1⟩, ⟨[9], [9], 1⟩], [0], 1⟩] = none :=
  feature_matrix_missing_relatum [⟨[0], [0], 1⟩, ⟨[0], [1], 1⟩]
    [⟨[⟨[0], [0], 1⟩, ⟨[9], [9], 1⟩], [0], 1⟩] (by decide)

/- ------------------------------------------------------------------ -/
/- C7: Embedding Adapter expansion                                     -/
/- ------------------------------------------------------------------ -/

theorem expandCoords_cons (p : List ℚ) (rest : List (List ℚ))
    (off : List ℚ) :
    expandCoords (p :: rest) off =
      p :: List.zipWith (· + ·) p off :: expandCoords rest off := by
  rw [expandCoords, expandCoords]
  rfl

theorem expandCoords_length (dc : List (List ℚ)) (off : List ℚ) :
    (expandCoords dc off).length = 2 * dc.length := by
  induction dc with
  | nil => rfl
  | cons p rest ih =>
    rw [expandCoords_cons]
    simp only [List.length_cons, ih]
    omega

theorem expandCoords_get_even (dc : List (List ℚ)) (off : List ℚ) (i : Nat) :
    (expandCoords dc off).get? (2 * i) = dc.get? i := by
  induction dc generalizing i with
  | nil => rfl
  | cons p rest ih =>
    cases i with
    | zero => rw [expandCoords_cons]; rfl
    | succ i =>
      rw [expandCoords_cons]
      have h2 : 2 * (i + 1) = 2 * i + 1 + 1 := by ring
      rw [h2]
      exact ih i

theorem expandCoords_get_odd (dc : List (List ℚ)) (off : List ℚ) (i : Nat) :
    (expandCoords dc off).get? (2 * i + 1) =
      (dc.get? i).map (fun p => List.zipWith (· + ·) p off) := by
  induction dc generalizing i with
  | nil => rfl
  | cons p rest ih =>
    cases i with
    | zero => rw [expandCoords_cons]; rfl
    | succ i =>
      rw [expandCoords_cons]
      have h2 : 2 * (i + 1) + 1 = 2 * i + 1 + 1 + 1 := by ring
      rw [h2]
      exact ih i

theorem separate_ces_cons (d : Distinction) (rest : List Distinction) :
    separate_ces (d :: rest) = d.cause :: d.effect :: separate_ces rest := by
  rw [separate_ces, separate_ces]
  rfl

theorem separate_ces_get (ces : List Distinction) (i : Nat) (d : Distinction)
    (h : ces.get? i = some d) :
    (separate_ces ces).get? (2 * i) = some d.cause ∧
    (separate_ces ces).get? (2 * i + 1) = some d.effect := by
  induction ces generalizing i with
  | nil => cases h
  | cons d0 rest ih =>
    cases i with
    | zero =>
      have : d0 = d := by
        cases h
        rfl
      subst this
      rw [separate_ces_cons]
      exact ⟨rfl, rfl⟩
    | succ i =>
      have h2 : 2 * (i + 1) = 2 * i + 1 + 1 := by ring
      rw [separate_ces_cons, h2]
      exact ih i h

/-- C7: the expanded coordinate array has exactly `2 × D` rows; row `2i` is
distinction `i`'s embedded point and row `2i+1` is the same point plus the
offset in effect (the configured offset, truncated to its first two
components in mechanism-order z-mode, added to the effect row only); in
mechanism-order z-mode the z column satisfies
`z[2i] = z[2i+1] = |mechanism_i|`. -/
theorem plot_coords_expansion (order_on_z : Bool) (ces : List Distinction)
    (dc : List (List ℚ)) (offset : List ℚ)
    (hlen : dc.length = ces.length)
    (hwf : ∀ d ∈ ces, d.cause.mechanism = d.mechanism ∧
      d.effect.mechanism = d.mechanism) :
    (plotCoords order_on_z dc offset).length = 2 * ces.length ∧
    (∀ i, (plotCoords order_on_z dc offset).get? (2 * i) = dc.get? i) ∧
    (∀ i p, dc.get? i = some p →
      (plotCoords order_on_z dc offset).get? (2 * i + 1) =
        some (List.zipWith (· + ·) p (usedOffset order_on_z offset))) ∧
    (order_on_z = true → ∀ i d, ces.get? i = some d →
      (zCoords ces).get? (2 * i) = some d.mechanism.length ∧
      (zCoords ces).get? (2 * i + 1) = some d.mechanism.length) := by
  refine ⟨?_, ?_, ?_, ?_⟩
  · rw [plotCoords, expandCoords_length, hlen]
  · intro i
    exact expandCoords_get_even dc _ i
  · intro i p hp
    rw [plotCoords, expandCoords_get_odd, hp]
    rfl
  · intro _ i d hd
    have hsep := separate_ces_get ces i d hd
    have hw := hwf d (List.get?_mem hd)
    constructor
    · rw [zCoords, List.get?_map, hsep.1]
      simp [hw.1]
    · rw [zCoords, List.get?_map, hsep.2]
      simp [hw.2]

/-- C7 witness: one distinction, embedded point `[1, 2]`, offset
`[3, 0, 9]` in z-mode: the effect row is the cause row plus the truncated
offset, and both z entries equal the mechanism order 2. -/
theorem plot_coords_expansion_witness :
    (plotCoords true [[1, 2]] [3, 0, 9]).get? (2 * 0 + 1) =
      some (List.zipWith (· + ·) [1, 2] (usedOffset true [3, 0, 9])) ∧
    (zCoords [⟨[0, 1], ⟨[0, 1], [0], 1⟩, ⟨[0, 1], [1], 1⟩, 1⟩]).get?
      (2 * 0) = some 2 ∧
    (zCoords [⟨[0, 1], ⟨[0, 1], [0], 1⟩, ⟨[0, 1], [1], 1⟩, 1⟩]).get?
      (2 * 0 + 1) = some 2 := by
  have h := plot_coords_expansion true
    [⟨[0, 1], ⟨[0, 1], [0], 1⟩, ⟨[0, 1], [1], 1⟩, 1⟩] [[1, 2]] [3, 0, 9]
    (by decide) (by decide)
  have hz := h.2.2.2 rfl 0 ⟨[0, 1], ⟨[0, 1], [0], 1⟩, ⟨[0, 1], [1], 1⟩, 1⟩ rfl
  exact ⟨h.2.2.1 0 [1, 2] rfl, hz.1, hz.2⟩

/- ------------------------------------------------------------------ -/
/- C8: Geometry Extractor                                              -/
/- ------------------------------------------------------------------ -/

theorem rvi_mem (col : List Nat) (p : Nat) :
    p ∈ relation_vertex_indices col ↔ p < col.length ∧ col.getD p 0 ≠ 0 := by
  induction col generalizing p with
  | nil => simp [relation_vertex_indices]
  | cons x xs ih =>
    rw [relation_vertex_indices]
    cases p with
    | zero =>
      by_cases hx : x ≠ 0
      · rw [if_pos hx]
        simp [hx]
      · rw [if_neg hx]
        simp only [List.nil_append, List.mem_map]
        constructor
        · rintro ⟨q, _, hq⟩
          cases hq
        · intro hc
          exact absurd hc.2 (by simpa using hx)
    | succ p =>
      have hgd : (x :: xs).getD (p + 1) 0 = xs.getD p 0 := rfl
      constructor
      · intro hmem
        rcases List.mem_append.mp hmem with hmem | hmem
        · split at hmem
          · simp at hmem
          · cases hmem
        · obtain ⟨q, hq, hq2⟩ := List.mem_map.mp hmem
          have : q = p := by omega
          subst this
          have := (ih q).mp hq
          rw [List.length_cons, hgd]
          exact ⟨by omega, this.2⟩
      · intro hc
        refine List.mem_append.mpr (Or.inr ?_)
        refine List.mem_map.mpr ⟨p, ?_, rfl⟩
        refine (ih p).mpr ⟨?_, ?_⟩
        · have := hc.1
          simp only [List.length_cons] at this
          omega
        · rw [hgd] at hc
          exact hc.2

theorem rvi_length (col : List Nat) :
    (relation_vertex_indices col).length =
      col.countP (fun v => decide (v ≠ 0)) := by
  induction col with
  | nil => rfl
  | cons x xs ih =>
    rw [relation_vertex_indices, List.length_append, List.length_map, ih,
      List.countP_cons]
    by_cases hx : x ≠ 0
    · rw [if_pos hx, if_pos (decide_eq_true hx)]
      simp [Nat.add_comm]
    · rw [if_neg hx, if_neg (by simpa using hx)]
      simp

theorem sum_eq_countP (col : List Nat) (hbin : ∀ v ∈ col, v ≤ 1) :
    col.sum = col.countP (fun v => decide (v ≠ 0)) := by
  induction col with
  | nil => rfl
  | cons x xs ih =>
    have hx := hbin x (List.mem_cons_self x xs)
    have ihx := ih (fun v hv => hbin v (List.mem_cons_of_mem x hv))
    rw [List.sum_cons, List.countP_cons, ihx]
    rcases Nat.le_one_iff_eq_zero_or_eq_one.mp hx with h | h
    · subst h
      simp
    · subst h
      rw [if_pos (by decide)]
      omega

theorem feature_matrix_cols_shape (ces : List Mice)
    (relations : List Relation) (cols : List (List Nat))
    (h : feature_matrix ces relations = some cols) :
    ∀ c ∈ cols, c.length = ces.length ∧ ∀ v ∈ c, v ≤ 1 := by
  induction relations generalizing cols with
  | nil =>
    have : cols = [] := by
      cases h
      rfl
    subst this
    intro c hc
    cases hc
  | cons r rs ih =>
    rw [feature_matrix] at h
    cases hrc : relationColumn ces r with
    | none =>
      rw [hrc] at h
      cases h
    | some c0 =>
      rw [hrc] at h
      cases hfm : feature_matrix ces rs with
      | none =>
        rw [hfm] at h
        cases h
      | some cs =>
        rw [hfm] at h
        cases h
        intro c hc
        rcases List.mem_cons.mp hc with hc | hc
        · subst hc
          rw [relationColumn] at hrc
          cases hci : collectIndices ces r.relata with
          | none =>
            rw [hci] at hrc
            cases hrc
          | some idxs =>
            rw [hci] at hrc
            cases hrc
            constructor
            · simp
            · intro v hv
              obtain ⟨q, _, hq⟩ := List.mem_map.mp hv
              split at hq <;> omega
        · exact ih cs hfm c hc

theorem chunk_list_flatten_pairs (ll : List (List Nat))
    (h : ∀ e ∈ ll, e.length = 2) : chunk_list 2 ll.flatten = ll := by
  induction ll with
  | nil => simp [chunk_list]
  | cons e rest ih =>
    have he : e.length = 2 := h e (List.mem_cons_self e rest)
    obtain ⟨a, b, hab⟩ : ∃ a b, e = [a, b] := by
      cases e with
      | nil => simp at he
      | cons a t =>
        cases t with
        | nil => simp at he
        | cons b t2 =>
          cases t2 with
          | nil => exact ⟨a, b, rfl⟩
          | cons c t3 => simp at he
    subst hab
    rw [List.flatten_cons, List.cons_append, List.cons_append,
      List.nil_append, chunk_list_two_cons,
      ih (fun e' he' => h e' (List.mem_cons_of_mem _ he'))]

/-- C8: from a successfully built feature matrix, the 2-relation edge
extraction yields exactly one vertex pair per column summing to exactly 2
(in column order), the 3-relation extraction exactly one vertex triple per
column summing to exactly 3, and nothing for columns with any other sum;
each extracted index set is exactly the set of row indices holding a 1 in
its column, and all indices are below the separated CES length. -/
theorem geometry_extraction_spec (ces : List Mice)
    (relations : List Relation) (cols : List (List Nat))
    (hfm : feature_matrix ces relations = some cols) :
    chunk_list 2 (edge_vertex_list cols) =
      (cols.filter (fun c => c.sum == 2)).map relation_vertex_indices ∧
    (chunk_list 2 (edge_vertex_list cols)).length =
      (cols.filter (fun c => c.sum == 2)).length ∧
    (trianglesOf cols).length =
      (cols.filter (fun c => c.sum == 3)).length ∧
    (∀ c ∈ cols, c.sum = 2 → (relation_vertex_indices c).length = 2) ∧
    (∀ c ∈ cols, c.sum = 3 → (relation_vertex_indices c).length = 3) ∧
    (∀ c ∈ cols, ∀ p, p ∈ relation_vertex_indices c ↔
      p < ces.length ∧ c.getD p 0 ≠ 0) := by
  have hshape := feature_matrix_cols_shape ces relations cols hfm
  have hrvi : ∀ c ∈ cols, ∀ k, c.sum = k →
      (relation_vertex_indices c).length = k := by
    intro c hc k hk
    rw [rvi_length, ← sum_eq_countP c (hshape c hc).2, hk]
  have hmain : chunk_list 2 (edge_vertex_list cols) =
      (cols.filter (fun c => c.sum == 2)).map relation_vertex_indices := by
    rw [edge_vertex_list,
      (rfl : (List.filter (fun c => c.sum == 2) cols).flatMap
          relation_vertex_indices =
        ((List.filter (fun c => c.sum == 2) cols).map
          relation_vertex_indices).flatten)]
    refine chunk_list_flatten_pairs _ ?_
    intro e he
    obtain ⟨c, hcf, hce⟩ := List.mem_map.mp he
    have hc2 : c.sum = 2 := by
      have := (List.mem_filter.mp hcf).2
      simpa using this
    rw [← hce]
    exact hrvi c (List.mem_filter.mp hcf).1 2 hc2
  refine ⟨hmain, ?_, ?_, ?_, ?_, ?_⟩
  · rw [hmain, List.length_map]
  · rw [trianglesOf, List.length_map]
  · intro c hc h2
    exact hrvi c hc 2 h2
  · intro c hc h3
    exact hrvi c hc 3 h3
  · intro c hc p
    rw [rvi_mem, (hshape c hc).1]

/-- C8 witness: feature matrix over a 4-entry separated CES with one
2-relation and one 3-relation yields exactly one edge pair `[0, 2]` and
one triangle `[0, 1, 3]`. -/
theorem geometry_extraction_spec_witness :
    chunk_list 2 (edge_vertex_list [[1, 0, 1, 0], [1, 1, 0, 1]]) =
      ([[1, 0, 1, 0], [1, 1, 0, 1]].filter
        (fun c => c.sum == 2)).map relation_vertex_indices ∧
    trianglesOf [[1, 0, 1, 0], [1, 1, 0, 1]] = [[0, 1, 3]] ∧
    chunk_list 2 (edge_vertex_list [[1, 0, 1, 0], [1, 1, 0, 1]]) =
      [[0, 2]] := by
  have hfm : feature_matrix
      [⟨[0], [0], 1⟩, ⟨[0], [1], 1⟩, ⟨[1], [0], 1⟩, ⟨[1], [2], 1⟩]
      [⟨[⟨[0], [0], 1⟩, ⟨[1], [0], 1⟩], [0], 1⟩,
       ⟨[⟨[0], [0], 1⟩, ⟨[0], [1], 1⟩, ⟨[1], [2], 1⟩], [1], 1⟩] =
      some [[1, 0, 1, 0], [1, 1, 0, 1]] := by decide
  have h := geometry_extraction_spec
    [⟨[0], [0], 1⟩, ⟨[0], [1], 1⟩, ⟨[1], [0], 1⟩, ⟨[1], [2], 1⟩]
    [⟨[⟨[0], [0], 1⟩, ⟨[1], [0], 1⟩], [0], 1⟩,
     ⟨[⟨[0], [0], 1⟩, ⟨[0], [1], 1⟩, ⟨[1], [2], 1⟩], [1], 1⟩]
    [[1, 0, 1, 0], [1, 1, 0, 1]] hfm
  refine ⟨h.1, by decide, ?_⟩
  rw [h.1]
  decide

/- ------------------------------------------------------------------ -/
/- C9: empty relation list is safe                                     -/
/- ------------------------------------------------------------------ -/

/-- C9: with an empty relation list the feature matrix succeeds (no
exception) with zero columns, the edge and triangle extraction both yield
nothing, and the rendered scene contains zero relation primitives (the
2-relation and 3-relation blocks are skipped entirely, so the q-fold
grouping stage — including `purview_chunker`, which would raise on an empty
list — is never entered). -/
theorem empty_relations_safe (ces : List Mice) (ℓ : Nat → String)
    (nodeIdx : List Nat) (dces : List Distinction) (flags : QfoldFlags)
    (show_edges show_mesh : Bool) :
    feature_matrix ces [] = some [] ∧
    edge_vertex_list [] = [] ∧
    trianglesOf [] = [] ∧
    plot_relation_primitives ℓ nodeIdx dces flags show_edges show_mesh
      [] [] = [] := by
  refine ⟨rfl, rfl, rfl, ?_⟩
  simp [plot_relation_primitives]

/- ------------------------------------------------------------------ -/
/- C1: legend dedup machinery                                          -/
/- ------------------------------------------------------------------ -/

theorem dedupOk_congr (l : List (Tag × Bool)) (S S2 : List Tag)
    (h : ∀ t, t ∈ S ↔ t ∈ S2) : dedupOk S l ↔ dedupOk S2 l := by
  induction l generalizing S S2 with
  | nil => simp [dedupOk]
  | cons p rest ih =>
    rw [dedupOk, dedupOk]
    exact and_congr (iff_congr Iff.rfl (not_congr (h p.1)))
      (ih (p.1 :: S) (p.1 :: S2) (fun t => by simp [h t]))

theorem dedupOk_append (l1 l2 : List (Tag × Bool)) (S : List Tag) :
    dedupOk S (l1 ++ l2) ↔
      dedupOk S l1 ∧ dedupOk (l1.map Prod.fst ++ S) l2 := by
  induction l1 generalizing S with
  | nil => simp [dedupOk]
  | cons p l1 ih =>
    rw [List.cons_append, dedupOk, ih, dedupOk]
    rw [dedupOk_congr l2 (l1.map Prod.fst ++ p.1 :: S)
      ((p :: l1).map Prod.fst ++ S)
      (by intro t; simp only [List.mem_append, List.mem_cons, List.map_cons]
          tauto)]
    tauto

theorem dedupOk_first_iff (l : List (Tag × Bool)) (S : List Tag)
    (h : dedupOk S l) : ∀ i p, l.get? i = some p →
      (p.2 = true ↔ (p.1 ∉ S ∧
        ∀ j q, j < i → l.get? j = some q → q.1 ≠ p.1)) := by
  induction l generalizing S with
  | nil =>
    intro i p hp
    cases i <;> cases hp
  | cons p rest ih =>
    rw [dedupOk] at h
    intro i q hq
    cases i with
    | zero =>
      have hqp : q = p := by
        cases hq
        rfl
      subst hqp
      constructor
      · intro hb
        exact ⟨h.1.mp hb, fun j u hj _ => absurd hj (Nat.not_lt_zero j)⟩
      · intro hc
        exact h.1.mpr hc.1
    | succ i =>
      have hrest := ih (p.1 :: S) h.2 i q hq
      constructor
      · intro hb
        have hh := hrest.mp hb
        have hqp : q.1 ≠ p.1 :=
          fun he => hh.1 (he ▸ List.mem_cons_self p.1 S)
        refine ⟨fun hmem => hh.1 (List.mem_cons_of_mem _ hmem), ?_⟩
        intro j u hj hu
        cases j with
        | zero =>
          have hup : u = p := by
            cases hu
            rfl
          subst hup
          exact fun he => hqp he.symm
        | succ j =>
          exact hh.2 j u (by omega) hu
      · intro hc
        apply hrest.mpr
        refine ⟨?_, ?_⟩
        · intro hmem
          rcases List.mem_cons.mp hmem with he | he
          · exact hc.2 0 p (Nat.succ_pos i) rfl he.symm
          · exact hc.1 he
        · intro j u hj hu
          exact hc.2 (j + 1) u (by omega) hu

theorem emitFamily_spec {κ : Type} [DecidableEq κ] (tagOf : κ → Tag)
    (Good : κ → Prop)
    (hinj : ∀ a, Good a → ∀ b, Good b → tagOf a = tagOf b → a = b)
    (keys : List κ) (seen : List κ) (S : List Tag)
    (hkeys : ∀ a ∈ keys, Good a)
    (hseen : ∀ a, Good a → (a ∈ seen ↔ tagOf a ∈ S)) :
    dedupOk S (emitFamily tagOf seen keys).1 ∧
    (emitFamily tagOf seen keys).1.map Prod.fst = keys.map tagOf ∧
    (∀ a, Good a → (a ∈ (emitFamily tagOf seen keys).2 ↔
      (tagOf a ∈ S ∨ tagOf a ∈ keys.map tagOf))) ∧
    (∀ a ∈ (emitFamily tagOf seen keys).2, a ∈ seen ∨ a ∈ keys) := by
  induction keys generalizing seen S with
  | nil =>
    refine ⟨trivial, rfl, ?_, ?_⟩
    · intro a hGa
      simp [emitFamily, hseen a hGa]
    · intro a ha
      exact Or.inl ha
  | cons k ks ih =>
    have hGk : Good k := hkeys k (List.mem_cons_self k ks)
    have hseen2 : ∀ a, Good a →
        (a ∈ (if k ∈ seen then seen else seen ++ [k]) ↔
          tagOf a ∈ tagOf k :: S) := by
      intro a hGa
      by_cases hak : a = k
      · subst hak
        have hmem : a ∈ (if a ∈ seen then seen else seen ++ [a]) := by
          by_cases hk : a ∈ seen
          · rw [if_pos hk]
            exact hk
          · rw [if_neg hk]
            exact List.mem_append.mpr (Or.inr (List.mem_cons_self a []))
        simp [hmem]
      · have htag : tagOf a ≠ tagOf k :=
          fun he => hak (hinj a hGa k hGk he)
        have hiff : a ∈ (if k ∈ seen then seen else seen ++ [k]) ↔
            a ∈ seen := by
          by_cases hk : k ∈ seen
          · rw [if_pos hk]
          · rw [if_neg hk]
            simp only [List.mem_append, List.mem_cons, List.not_mem_nil,
              or_false]
            constructor
            · intro hc
              rcases hc with hc | hc
              · exact hc
              · exact absurd hc hak
            · exact Or.inl
        rw [hiff, List.mem_cons, hseen a hGa]
        constructor
        · exact Or.inr
        · intro hc
          rcases hc with hc | hc
          · exact absurd hc htag
          · exact hc
    have IH := ih (if k ∈ seen then seen else seen ++ [k]) (tagOf k :: S)
      (fun a ha => hkeys a (List.mem_cons_of_mem k ha)) hseen2
    rw [emitFamily]
    refine ⟨?_, ?_, ?_, ?_⟩
    · rw [dedupOk]
      refine ⟨?_, IH.1⟩
      rw [decide_eq_true_eq]
      exact not_congr (hseen k hGk)
    · rw [List.map_cons, List.map_cons, IH.2.1]
    · intro a hGa
      rw [IH.2.2.1 a hGa, List.map_cons, List.mem_cons, List.mem_cons]
      tauto
    · intro a ha
      rcases IH.2.2.2 a ha with hc | hc
      · by_cases hk : k ∈ seen
        · rw [if_pos hk] at hc
          exact Or.inl hc
        · rw [if_neg hk] at hc
          rcases List.mem_append.mp hc with hc | hc
          · exact Or.inl hc
          · simp only [List.mem_cons, List.not_mem_nil, or_false] at hc
            exact Or.inr (hc ▸ List.mem_cons_self k ks)
      · exact Or.inr (List.mem_cons_of_mem k hc)

theorem not_mem_map_of_ne {κ : Type} (f : κ → Tag) (K : List κ) (t : Tag)
    (h : ∀ a, f a ≠ t) : t ∉ K.map f := by
  intro hmem
  obtain ⟨a, _, ha⟩ := List.mem_map.mp hmem
  exact h a ha

theorem mem_rot2 (t : Tag) (A B S : List Tag) :
    t ∈ (A ++ B) ++ S ↔ t ∈ B ++ (A ++ S) := by
  simp only [List.mem_append]
  tauto

theorem mem_rot3 (t : Tag) (A B C S : List Tag) :
    t ∈ ((A ++ B) ++ C) ++ S ↔ t ∈ C ++ (B ++ (A ++ S)) := by
  simp only [List.mem_append]
  tauto

theorem mem_rot4 (t : Tag) (A B C D S : List Tag) :
    t ∈ (((A ++ B) ++ C) ++ D) ++ S ↔ t ∈ D ++ (C ++ (B ++ (A ++ S))) := by
  simp only [List.mem_append]
  tauto

theorem mem_reduce_pos1 (t : Tag) (L1 L2 L3 L4 L5 S : List Tag)
    (h2 : t ∉ L2) (h3 : t ∉ L3) (h4 : t ∉ L4) (h5 : t ∉ L5) :
    t ∈ (L1 ++ L2 ++ L3 ++ L4 ++ L5) ++ S ↔ (t ∈ S ∨ t ∈ L1) := by
  simp only [List.mem_append]
  tauto

theorem mem_reduce_pos2 (t : Tag) (L1 L2 L3 L4 L5 S : List Tag)
    (h1 : t ∉ L1) (h3 : t ∉ L3) (h4 : t ∉ L4) (h5 : t ∉ L5) :
    t ∈ (L1 ++ L2 ++ L3 ++ L4 ++ L5) ++ S ↔ (t ∈ L1 ++ S ∨ t ∈ L2) := by
  simp only [List.mem_append]
  tauto

theorem mem_reduce_pos3 (t : Tag) (L1 L2 L3 L4 L5 S : List Tag)
    (h1 : t ∉ L1) (h2 : t ∉ L2) (h4 : t ∉ L4) (h5 : t ∉ L5) :
    t ∈ (L1 ++ L2 ++ L3 ++ L4 ++ L5) ++ S ↔
      (t ∈ L2 ++ (L1 ++ S) ∨ t ∈ L3) := by
  simp only [List.mem_append]
  tauto

theorem mem_reduce_pos4 (t : Tag) (L1 L2 L3 L4 L5 S : List Tag)
    (h1 : t ∉ L1) (h2 : t ∉ L2) (h3 : t ∉ L3) (h5 : t ∉ L5) :
    t ∈ (L1 ++ L2 ++ L3 ++ L4 ++ L5) ++ S ↔
      (t ∈ L3 ++ (L2 ++ (L1 ++ S)) ∨ t ∈ L4) := by
  simp only [List.mem_append]
  tauto

theorem mem_reduce_pos5 (t : Tag) (L1 L2 L3 L4 L5 S : List Tag)
    (h1 : t ∉ L1) (h2 : t ∉ L2) (h3 : t ∉ L3) (h4 : t ∉ L4) :
    t ∈ (L1 ++ L2 ++ L3 ++ L4 ++ L5) ++ S ↔
      (t ∈ L4 ++ (L3 ++ (L2 ++ (L1 ++ S))) ∨ t ∈ L5) := by
  simp only [List.mem_append]
  tauto

theorem mem_reduce_none (t : Tag) (L1 L2 L3 L4 L5 S : List Tag)
    (h1 : t ∉ L1) (h2 : t ∉ L2) (h3 : t ∉ L3) (h4 : t ∉ L4) (h5 : t ∉ L5) :
    t ∈ (L1 ++ L2 ++ L3 ++ L4 ++ L5) ++ S ↔ t ∈ S := by
  simp only [List.mem_append]
  tauto

theorem nodeKeys_subset (flags : QfoldFlags) (nodeIdx : List Nat)
    (rel : Relation) : ∀ a ∈ nodeKeys flags nodeIdx rel, a ∈ nodeIdx := by
  intro a ha
  rw [nodeKeys] at ha
  split at ha
  · exact (List.mem_filter.mp ha).1
  · cases ha

set_option maxHeartbeats 2000000 in
theorem emitQfoldSections_spec (ℓ : Nat → String) (nodeIdx : List Nat)
    (ces : List Distinction) (flags : QfoldFlags) (withMcp : Bool)
    (rel : Relation) (s : LegendState) (S : List Tag) (r2 r3 : Nat)
    (hinj : NodeLabelInj ℓ nodeIdx)
    (hInv : LegendInv ℓ nodeIdx s S r2 r3) :
    dedupOk S (emitQfoldSections ℓ nodeIdx ces flags withMcp rel s).1 ∧
    (∀ t ∈ (emitQfoldSections ℓ nodeIdx ces flags withMcp rel s).1.map
      Prod.fst, t ≠ Tag.all2 ∧ t ≠ Tag.all3) ∧
    LegendInv ℓ nodeIdx
      (emitQfoldSections ℓ nodeIdx ces flags withMcp rel s).2
      ((emitQfoldSections ℓ nodeIdx ces flags withMcp rel s).1.map Prod.fst
        ++ S) r2 r3 := by
  obtain ⟨hN1, hN2, hM, hP, hR, hC, hA2, hA3⟩ := hInv
  simp only [emitQfoldSections]
  set K1 := nodeKeys flags nodeIdx rel with hK1def
  set K2 := mechKeys ℓ flags ces rel with hK2def
  set K3 := cpurKeys ℓ flags rel with hK3def
  set K4 := rpurKeys ℓ flags rel with hK4def
  set K5 := if withMcp then mcpKeys ℓ flags ces rel else [] with hK5def
  have hinj1 : ∀ a, a ∈ nodeIdx → ∀ b, b ∈ nodeIdx →
      (fun n => Tag.node (makeLabel ℓ [n])) a =
        (fun n => Tag.node (makeLabel ℓ [n])) b → a = b := by
    intro a ha b hb h
    exact hinj a ha b hb (Tag.node.inj h)
  have E1 := emitFamily_spec (fun n => Tag.node (makeLabel ℓ [n]))
    (fun n => n ∈ nodeIdx) hinj1 K1 s.nodes S
    (nodeKeys_subset flags nodeIdx rel) hN2
  set a1 := emitFamily (fun n => Tag.node (makeLabel ℓ [n])) s.nodes K1
    with ha1def
  have hT1 : a1.1.map Prod.fst = K1.map (fun n => Tag.node (makeLabel ℓ [n])) :=
    E1.2.1
  have hpure1 : ∀ t : Tag, (∀ x, Tag.node x ≠ t) → t ∉ a1.1.map Prod.fst := by
    intro t ht
    rw [hT1]
    exact not_mem_map_of_ne _ _ _ (fun a => ht (makeLabel ℓ [a]))
  have hseenM : ∀ a : String, True →
      (a ∈ s.mechs ↔ Tag.mech a ∈ a1.1.map Prod.fst ++ S) := by
    intro a _
    rw [List.mem_append, hM a]
    have := hpure1 (Tag.mech a) (fun x h => Tag.noConfusion h)
    tauto
  have E2 := emitFamily_spec Tag.mech (fun _ : String => True)
    (fun a _ b _ h => Tag.mech.inj h) K2 s.mechs (a1.1.map Prod.fst ++ S)
    (fun a _ => trivial) hseenM
  set a2 := emitFamily Tag.mech s.mechs K2 with ha2def
  have hT2 : a2.1.map Prod.fst = K2.map Tag.mech := E2.2.1
  have hpure2 : ∀ t : Tag, (∀ x, Tag.mech x ≠ t) → t ∉ a2.1.map Prod.fst := by
    intro t ht
    rw [hT2]
    exact not_mem_map_of_ne _ _ _ ht
  have hseenP : ∀ a : String, True →
      (a ∈ s.purviews ↔
        Tag.cpur a ∈ a2.1.map Prod.fst ++ (a1.1.map Prod.fst ++ S)) := by
    intro a _
    rw [List.mem_append, List.mem_append, hP a]
    have h1 := hpure1 (Tag.cpur a) (fun x h => Tag.noConfusion h)
    have h2 := hpure2 (Tag.cpur a) (fun x h => Tag.noConfusion h)
    tauto
  have E3 := emitFamily_spec Tag.cpur (fun _ : String => True)
    (fun a _ b _ h => Tag.cpur.inj h) K3 s.purviews
    (a2.1.map Prod.fst ++ (a1.1.map Prod.fst ++ S))
    (fun a _ => trivial) hseenP
  set a3 := emitFamily Tag.cpur s.purviews K3 with ha3def
  have hT3 : a3.1.map Prod.fst = K3.map Tag.cpur := E3.2.1
  have hpure3 : ∀ t : Tag, (∀ x, Tag.cpur x ≠ t) → t ∉ a3.1.map Prod.fst := by
    intro t ht
    rw [hT3]
    exact not_mem_map_of_ne _ _ _ ht
  have hseenR : ∀ a : String, True →
      (a ∈ s.relPurviews ↔
        Tag.rpur a ∈ a3.1.map Prod.fst ++
          (a2.1.map Prod.fst ++ (a1.1.map Prod.fst ++ S))) := by
    intro a _
    rw [List.mem_append, List.mem_append, List.mem_append, hR a]
    have h1 := hpure1 (Tag.rpur a) (fun x h => Tag.noConfusion h)
    have h2 := hpure2 (Tag.rpur a) (fun x h => Tag.noConfusion h)
    have h3 := hpure3 (Tag.rpur a) (fun x h => Tag.noConfusion h)
    tauto
  have E4 := emitFamily_spec Tag.rpur (fun _ : String => True)
    (fun a _ b _ h => Tag.rpur.inj h) K4 s.relPurviews
    (a3.1.map Prod.fst ++ (a2.1.map Prod.fst ++ (a1.1.map Prod.fst ++ S)))
    (fun a _ => trivial) hseenR
  set a4 := emitFamily Tag.rpur s.relPurviews K4 with ha4def
  have hT4 : a4.1.map Prod.fst = K4.map Tag.rpur := E4.2.1
  have hpure4 : ∀ t : Tag, (∀ x, Tag.rpur x ≠ t) → t ∉ a4.1.map Prod.fst := by
    intro t ht
    rw [hT4]
    exact not_mem_map_of_ne _ _ _ ht
  have hseenC : ∀ a : String, True →
      (a ∈ s.mechCause ↔
        Tag.mcp a ∈ a4.1.map Prod.fst ++ (a3.1.map Prod.fst ++
          (a2.1.map Prod.fst ++ (a1.1.map Prod.fst ++ S)))) := by
    intro a _
    rw [List.mem_append, List.mem_append, List.mem_append, List.mem_append,
      hC a]
    have h1 := hpure1 (Tag.mcp a) (fun x h => Tag.noConfusion h)
    have h2 := hpure2 (Tag.mcp a) (fun x h => Tag.noConfusion h)
    have h3 := hpure3 (Tag.mcp a) (fun x h => Tag.noConfusion h)
    have h4 := hpure4 (Tag.mcp a) (fun x h => Tag.noConfusion h)
    tauto
  have E5 := emitFamily_spec Tag.mcp (fun _ : String => True)
    (fun a _ b _ h => Tag.mcp.inj h) K5 s.mechCause
    (a4.1.map Prod.fst ++ (a3.1.map Prod.fst ++
      (a2.1.map Prod.fst ++ (a1.1.map Prod.fst ++ S))))
    (fun a _ => trivial) hseenC
  set a5 := emitFamily Tag.mcp s.mechCause K5 with ha5def
  have hT5 : a5.1.map Prod.fst = K5.map Tag.mcp := E5.2.1
  have hpure5 : ∀ t : Tag, (∀ x, Tag.mcp x ≠ t) → t ∉ a5.1.map Prod.fst := by
    intro t ht
    rw [hT5]
    exact not_mem_map_of_ne _ _ _ ht
  have hTT : (a1.1 ++ a2.1 ++ a3.1 ++ a4.1 ++ a5.1).map Prod.fst =
      a1.1.map Prod.fst ++ a2.1.map Prod.fst ++ a3.1.map Prod.fst ++
        a4.1.map Prod.fst ++ a5.1.map Prod.fst := by
    simp [List.map_append]
  refine ⟨?_, ?_, ?_⟩
  · rw [dedupOk_append, dedupOk_append, dedupOk_append, dedupOk_append]
    refine ⟨⟨⟨⟨E1.1, E2.1⟩, ?_⟩, ?_⟩, ?_⟩
    · rw [List.map_append]
      exact (dedupOk_congr _ _ _ (fun t => mem_rot2 t _ _ _)).mpr E3.1
    · rw [List.map_append, List.map_append]
      exact (dedupOk_congr _ _ _ (fun t => mem_rot3 t _ _ _ _)).mpr E4.1
    · rw [List.map_append, List.map_append, List.map_append]
      exact (dedupOk_congr _ _ _ (fun t => mem_rot4 t _ _ _ _ _)).mpr E5.1
  · intro t ht
    simp only [List.map_append, List.mem_append] at ht
    rcases ht with ((((ht | ht) | ht) | ht) | ht)
    · rw [hT1] at ht
      obtain ⟨n, _, hn⟩ := List.mem_map.mp ht
      rw [← hn]
      exact ⟨fun h => Tag.noConfusion h, fun h => Tag.noConfusion h⟩
    · rw [hT2] at ht
      obtain ⟨n, _, hn⟩ := List.mem_map.mp ht
      rw [← hn]
      exact ⟨fun h => Tag.noConfusion h, fun h => Tag.noConfusion h⟩
    · rw [hT3] at ht
      obtain ⟨n, _, hn⟩ := List.mem_map.mp ht
      rw [← hn]
      exact ⟨fun h => Tag.noConfusion h, fun h => Tag.noConfusion h⟩
    · rw [hT4] at ht
      obtain ⟨n, _, hn⟩ := List.mem_map.mp ht
      rw [← hn]
      exact ⟨fun h => Tag.noConfusion h, fun h => Tag.noConfusion h⟩
    · rw [hT5] at ht
      obtain ⟨n, _, hn⟩ := List.mem_map.mp ht
      rw [← hn]
      exact ⟨fun h => Tag.noConfusion h, fun h => Tag.noConfusion h⟩
  · refine ⟨?_, ?_, ?_, ?_, ?_, ?_, ?_, ?_⟩
    · intro n hn
      rcases E1.2.2.2 n hn with hc | hc
      · exact hN1 n hc
      · exact nodeKeys_subset flags nodeIdx rel n hc
    · intro n hn
      rw [E1.2.2.1 n hn, hTT, ← hT1]
      exact (mem_reduce_pos1 _ _ _ _ _ _ _
        (hpure2 _ (fun x h => Tag.noConfusion h))
        (hpure3 _ (fun x h => Tag.noConfusion h))
        (hpure4 _ (fun x h => Tag.noConfusion h))
        (hpure5 _ (fun x h => Tag.noConfusion h))).symm
    · intro l
      rw [E2.2.2.1 l trivial, hTT, ← hT2]
      exact (mem_reduce_pos2 _ _ _ _ _ _ _
        (hpure1 _ (fun x h => Tag.noConfusion h))
        (hpure3 _ (fun x h => Tag.noConfusion h))
        (hpure4 _ (fun x h => Tag.noConfusion h))
        (hpure5 _ (fun x h => Tag.noConfusion h))).symm
    · intro l
      rw [E3.2.2.1 l trivial, hTT, ← hT3]
      exact (mem_reduce_pos3 _ _ _ _ _ _ _
        (hpure1 _ (fun x h => Tag.noConfusion h))
        (hpure2 _ (fun x h => Tag.noConfusion h))
        (hpure4 _ (fun x h => Tag.noConfusion h))
        (hpure5 _ (fun x h => Tag.noConfusion h))).symm
    · intro l
      rw [E4.2.2.1 l trivial, hTT, ← hT4]
      exact (mem_reduce_pos4 _ _ _ _ _ _ _
        (hpure1 _ (fun x h => Tag.noConfusion h))
        (hpure2 _ (fun x h => Tag.noConfusion h))
        (hpure3 _ (fun x h => Tag.noConfusion h))
        (hpure5 _ (fun x h => Tag.noConfusion h))).symm
    · intro l
      rw [E5.2.2.1 l trivial, hTT, ← hT5]
      exact (mem_reduce_pos5 _ _ _ _ _ _ _
        (hpure1 _ (fun x h => Tag.noConfusion h))
        (hpure2 _ (fun x h => Tag.noConfusion h))
        (hpure3 _ (fun x h => Tag.noConfusion h))
        (hpure4 _ (fun x h => Tag.noConfusion h))).symm
    · rw [hTT]
      rw [mem_reduce_none Tag.all2 _ _ _ _ _ _
        (hpure1 _ (fun x h => Tag.noConfusion h))
        (hpure2 _ (fun x h => Tag.noConfusion h))
        (hpure3 _ (fun x h => Tag.noConfusion h))
        (hpure4 _ (fun x h => Tag.noConfusion h))
        (hpure5 _ (fun x h => Tag.noConfusion h))]
      exact hA2
    · rw [hTT]
      rw [mem_reduce_none Tag.all3 _ _ _ _ _ _
        (hpure1 _ (fun x h => Tag.noConfusion h))
        (hpure2 _ (fun x h => Tag.noConfusion h))
        (hpure3 _ (fun x h => Tag.noConfusion h))
        (hpure4 _ (fun x h => Tag.noConfusion h))
        (hpure5 _ (fun x h => Tag.noConfusion h))]
      exact hA3

theorem LegendInv_congr (ℓ : Nat → String) (nodeIdx : List Nat)
    (s : LegendState) (S S2 : List Tag) (r2 r3 : Nat)
    (h : ∀ t, t ∈ S ↔ t ∈ S2)
    (hI : LegendInv ℓ nodeIdx s S r2 r3) :
    LegendInv ℓ nodeIdx s S2 r2 r3 := by
  obtain ⟨I1, I2, I3, I4, I5, I6, I7, I8⟩ := hI
  exact ⟨I1, fun n hn => (I2 n hn).trans (h _), fun l => (I3 l).trans (h _),
    fun l => (I4 l).trans (h _), fun l => (I5 l).trans (h _),
    fun l => (I6 l).trans (h _), (h _).symm.trans I7, (h _).symm.trans I8⟩

theorem emitRelationTraces2_spec (ℓ : Nat → String) (nodeIdx : List Nat)
    (ces : List Distinction) (flags : QfoldFlags) (r2 r3 : Nat)
    (rel : Relation) (s : LegendState) (S : List Tag)
    (hinj : NodeLabelInj ℓ nodeIdx)
    (hInv : LegendInv ℓ nodeIdx s S r2 r3) :
    dedupOk S (emitRelationTraces2 ℓ nodeIdx ces flags r2 rel s).1 ∧
    LegendInv ℓ nodeIdx (emitRelationTraces2 ℓ nodeIdx ces flags r2 rel s).2
      ((emitRelationTraces2 ℓ nodeIdx ces flags r2 rel s).1.map Prod.fst
        ++ S) (r2 + 1) r3 := by
  obtain ⟨Ed, Epure, EInv⟩ :=
    emitQfoldSections_spec ℓ nodeIdx ces flags true rel s S r2 r3 hinj hInv
  simp only [emitRelationTraces2]
  set a := emitQfoldSections ℓ nodeIdx ces flags true rel s with hadef
  have hmm : ∀ t : Tag, t ≠ Tag.all2 →
      (t ∈ (a.1 ++ [(Tag.all2, decide (r2 = 0))]).map Prod.fst ++ S ↔
        t ∈ a.1.map Prod.fst ++ S) := by
    intro t ht
    simp [List.map_append, ht]
  constructor
  · rw [dedupOk_append]
    refine ⟨Ed, ?_⟩
    rw [dedupOk]
    refine ⟨?_, trivial⟩
    rw [decide_eq_true_eq]
    have h := EInv.2.2.2.2.2.2.1
    constructor
    · intro h0 hmem
      exact (h.mp hmem) h0
    · intro hnot
      by_contra h0
      exact hnot (h.mpr h0)
  · obtain ⟨I1, I2, I3, I4, I5, I6, I7, I8⟩ := EInv
    refine ⟨I1, ?_, ?_, ?_, ?_, ?_, ?_, ?_⟩
    · intro n hn
      rw [hmm (Tag.node (makeLabel ℓ [n])) (fun h => Tag.noConfusion h)]
      exact I2 n hn
    · intro l
      rw [hmm (Tag.mech l) (fun h => Tag.noConfusion h)]
      exact I3 l
    · intro l
      rw [hmm (Tag.cpur l) (fun h => Tag.noConfusion h)]
      exact I4 l
    · intro l
      rw [hmm (Tag.rpur l) (fun h => Tag.noConfusion h)]
      exact I5 l
    · intro l
      rw [hmm (Tag.mcp l) (fun h => Tag.noConfusion h)]
      exact I6 l
    · have hm : Tag.all2 ∈
          (a.1 ++ [(Tag.all2, decide (r2 = 0))]).map Prod.fst ++ S := by
        simp [List.map_append]
      exact ⟨fun _ => Nat.succ_ne_zero r2, fun _ => hm⟩
    · rw [hmm Tag.all3 (fun h => Tag.noConfusion h)]
      exact I8

theorem emitRelationTraces3_spec (ℓ : Nat → String) (nodeIdx : List Nat)
    (ces : List Distinction) (flags : QfoldFlags) (r2 r3 : Nat)
    (rel : Relation) (s : LegendState) (S : List Tag)
    (hinj : NodeLabelInj ℓ nodeIdx)
    (hInv : LegendInv ℓ nodeIdx s S r2 r3) :
    dedupOk S (emitRelationTraces3 ℓ nodeIdx ces flags r3 rel s).1 ∧
    LegendInv ℓ nodeIdx (emitRelationTraces3 ℓ nodeIdx ces flags r3 rel s).2
      ((emitRelationTraces3 ℓ nodeIdx ces flags r3 rel s).1.map Prod.fst
        ++ S) r2 (r3 + 1) := by
  obtain ⟨Ed, Epure, EInv⟩ :=
    emitQfoldSections_spec ℓ nodeIdx ces flags false rel s S r2 r3 hinj hInv
  simp only [emitRelationTraces3]
  set a := emitQfoldSections ℓ nodeIdx ces flags false rel s with hadef
  have hmm : ∀ t : Tag, t ≠ Tag.all3 →
      (t ∈ (a.1 ++ [(Tag.all3, decide (r3 = 0))]).map Prod.fst ++ S ↔
        t ∈ a.1.map Prod.fst ++ S) := by
    intro t ht
    simp [List.map_append, ht]
  constructor
  · rw [dedupOk_append]
    refine ⟨Ed, ?_⟩
    rw [dedupOk]
    refine ⟨?_, trivial⟩
    rw [decide_eq_true_eq]
    have h := EInv.2.2.2.2.2.2.2
    constructor
    · intro h0 hmem
      exact (h.mp hmem) h0
    · intro hnot
      by_contra h0
      exact hnot (h.mpr h0)
  · obtain ⟨I1, I2, I3, I4, I5, I6, I7, I8⟩ := EInv
    refine ⟨I1, ?_, ?_, ?_, ?_, ?_, ?_, ?_⟩
    · intro n hn
      rw [hmm (Tag.node (makeLabel ℓ [n])) (fun h => Tag.noConfusion h)]
      exact I2 n hn
    · intro l
      rw [hmm (Tag.mech l) (fun h => Tag.noConfusion h)]
      exact I3 l
    · intro l
      rw [hmm (Tag.cpur l) (fun h => Tag.noConfusion h)]
      exact I4 l
    · intro l
      rw [hmm (Tag.rpur l) (fun h => Tag.noConfusion h)]
      exact I5 l
    · intro l
      rw [hmm (Tag.mcp l) (fun h => Tag.noConfusion h)]
      exact I6 l
    · rw [hmm Tag.all2 (fun h => Tag.noConfusion h)]
      exact I7
    · have hm : Tag.all3 ∈
          (a.1 ++ [(Tag.all3, decide (r3 = 0))]).map Prod.fst ++ S := by
        simp [List.map_append]
      exact ⟨fun _ => Nat.succ_ne_zero r3, fun _ => hm⟩

theorem runTwoRelations_spec (ℓ : Nat → String) (nodeIdx : List Nat)
    (ces : List Distinction) (flags : QfoldFlags) (rels : List Relation)
    (r2 r3 : Nat) (s : LegendState) (S : List Tag)
    (hinj : NodeLabelInj ℓ nodeIdx)
    (hInv : LegendInv ℓ nodeIdx s S r2 r3) :
    dedupOk S (runTwoRelations ℓ nodeIdx ces flags r2 rels s).1 ∧
    LegendInv ℓ nodeIdx (runTwoRelations ℓ nodeIdx ces flags r2 rels s).2
      ((runTwoRelations ℓ nodeIdx ces flags r2 rels s).1.map Prod.fst ++ S)
      (r2 + rels.length) r3 := by
  induction rels generalizing r2 s S with
  | nil =>
    refine ⟨trivial, ?_⟩
    simpa using hInv
  | cons rel rest ih =>
    have A := emitRelationTraces2_spec ℓ nodeIdx ces flags r2 r3 rel s S
      hinj hInv
    have B := ih (r2 + 1) (emitRelationTraces2 ℓ nodeIdx ces flags r2 rel s).2
      ((emitRelationTraces2 ℓ nodeIdx ces flags r2 rel s).1.map Prod.fst
        ++ S) A.2
    rw [runTwoRelations]
    constructor
    · rw [dedupOk_append]
      exact ⟨A.1, B.1⟩
    · rw [List.map_append,
        show r2 + (rel :: rest).length = r2 + 1 + rest.length from by
          simp only [List.length_cons]
          omega]
      exact LegendInv_congr ℓ nodeIdx _ _ _ _ _
        (fun t => (mem_rot2 t _ _ _).symm) B.2

theorem runThreeRelations_spec (ℓ : Nat → String) (nodeIdx : List Nat)
    (ces : List Distinction) (flags : QfoldFlags) (rels : List Relation)
    (r2 r3 : Nat) (s : LegendState) (S : List Tag)
    (hinj : NodeLabelInj ℓ nodeIdx)
    (hInv : LegendInv ℓ nodeIdx s S r2 r3) :
    dedupOk S (runThreeRelations ℓ nodeIdx ces flags r3 rels s).1 ∧
    LegendInv ℓ nodeIdx (runThreeRelations ℓ nodeIdx ces flags r3 rels s).2
      ((runThreeRelations ℓ nodeIdx ces flags r3 rels s).1.map Prod.fst ++ S)
      r2 (r3 + rels.length) := by
  induction rels generalizing r3 s S with
  | nil =>
    refine ⟨trivial, ?_⟩
    simpa using hInv
  | cons rel rest ih =>
    have A := emitRelationTraces3_spec ℓ nodeIdx ces flags r2 r3 rel s S
      hinj hInv
    have B := ih (r3 + 1) (emitRelationTraces3 ℓ nodeIdx ces flags r3 rel s).2
      ((emitRelationTraces3 ℓ nodeIdx ces flags r3 rel s).1.map Prod.fst
        ++ S) A.2
    rw [runThreeRelations]
    constructor
    · rw [dedupOk_append]
      exact ⟨A.1, B.1⟩
    · rw [List.map_append,
        show r3 + (rel :: rest).length = r3 + 1 + rest.length from by
          simp only [List.length_cons]
          omega]
      exact LegendInv_congr ℓ nodeIdx _ _ _ _ _
        (fun t => (mem_rot2 t _ _ _).symm) B.2

theorem plot_relation_primitives_dedup (ℓ : Nat → String)
    (nodeIdx : List Nat) (ces : List Distinction) (flags : QfoldFlags)
    (se sm : Bool) (two three : List Relation)
    (hinj : NodeLabelInj ℓ nodeIdx) :
    dedupOk []
      (plot_relation_primitives ℓ nodeIdx ces flags se sm two three) := by
  have hInv0 : LegendInv ℓ nodeIdx ⟨[], [], [], [], []⟩ [] 0 0 := by
    refine ⟨?_, ?_, ?_, ?_, ?_, ?_, ?_, ?_⟩ <;> simp
  simp only [plot_relation_primitives]
  by_cases h2 : se = true ∧ two ≠ []
  · rw [if_pos h2]
    have R2 := runTwoRelations_spec ℓ nodeIdx ces flags two 0 0
      ⟨[], [], [], [], []⟩ [] hinj hInv0
    by_cases h3 : sm = true ∧ three ≠ []
    · rw [if_pos h3]
      have R3 := runThreeRelations_spec ℓ nodeIdx ces flags three
        (0 + two.length) 0
        (runTwoRelations ℓ nodeIdx ces flags 0 two ⟨[], [], [], [], []⟩).2
        ((runTwoRelations ℓ nodeIdx ces flags 0 two
          ⟨[], [], [], [], []⟩).1.map Prod.fst ++ []) hinj R2.2
      rw [dedupOk_append]
      exact ⟨R2.1, R3.1⟩
    · rw [if_neg h3]
      simpa using R2.1
  · rw [if_neg h2]
    by_cases h3 : sm = true ∧ three ≠ []
    · rw [if_pos h3]
      have R3 := runThreeRelations_spec ℓ nodeIdx ces flags three 0 0
        ⟨[], [], [], [], []⟩ [] hinj hInv0
      simpa using R3.1
    · rw [if_neg h3]
      exact trivial

/-- C1: within one rendering call, across both the 2-relation and the
3-relation loops (which share the per-call legend-seen lists, reset at the
start of the call), a relation primitive's legend entry is shown iff no
earlier primitive of the call carries the same legendgroup tag — the first
primitive of every q-fold family tag and of the catch-all
`All 2-Relations` / `All 3-Relations` tags shows its legend entry and every
later primitive under the same tag has it suppressed.  Requires distinct
node indices to have distinct labels, since the node family's seen-list is
keyed by index while its legendgroup is keyed by label. -/
theorem plot_ces_legend_dedup (ℓ : Nat → String) (nodeIdx : List Nat)
    (ces : List Distinction) (flags : QfoldFlags) (se sm : Bool)
    (two three : List Relation) (hinj : NodeLabelInj ℓ nodeIdx) :
    ∀ i p, (plot_relation_primitives ℓ nodeIdx ces flags se sm
        two three).get? i = some p →
      (p.2 = true ↔ ∀ j q, j < i →
        (plot_relation_primitives ℓ nodeIdx ces flags se sm
          two three).get? j = some q → q.1 ≠ p.1) := by
  intro i p hp
  have h := dedupOk_first_iff _ []
    (plot_relation_primitives_dedup ℓ nodeIdx ces flags se sm two three hinj)
    i p hp
  exact h.trans (and_iff_right (List.not_mem_nil p.1))

/-- C1 witness: two distinct 2-relations sharing their mechanisms, all five
q-fold families enabled; the primitive at index 10 is the second
`Mechanism A q-fold` trace, and its legend entry is suppressed exactly
because an earlier primitive (index 2) carries the same tag. -/
theorem plot_ces_legend_dedup_witness :
    ((Tag.mech "A", false).2 = true ↔ ∀ j q, j < 10 →
      (plot_relation_primitives (fun n => if n = 0 then "A" else "B")
        [0, 1] [⟨[0], ⟨[0], [0], 1⟩, ⟨[0], [1], 1⟩, 1⟩]
        ⟨true, true, true, true, true⟩ true true
        [sampleRelA, sampleRelB] []).get? j = some q →
      q.1 ≠ (Tag.mech "A", false).1) :=
  plot_ces_legend_dedup (fun n => if n = 0 then "A" else "B") [0, 1]
    [⟨[0], ⟨[0], [0], 1⟩, ⟨[0], [1], 1⟩, 1⟩]
    ⟨true, true, true, true, true⟩ true true [sampleRelA, sampleRelB] []
    (by unfold NodeLabelInj; decide) 10 (Tag.mech "A", false) (by decide)

end Visualize
